import Mathlib

/-!
Verification of the dense linear-algebra core of the repository:
matrix construction and element access (src/include/matrix.hpp),
matrix multiplication, reduced row-echelon reduction, the vector wrapper
with its dot product (src/include/vector.hpp), and the linalg routines
(rotation builders and the linear-system solver, src/include/linalg.hpp).

Scalars are modelled by a decidable field; the C++ code instantiates its
templates at numeric types, and rational instances are used for all
concrete evaluations.  C++ exceptions are modelled by an explicit error
type and Except-valued operations.  A matrix is modelled by its dimensions
together with its entry function: entry i j stands for the row-major cell
data[i * cols + j]; cells outside the bounds are never observed by the
embedded operations, which guard every write by the loop bounds of the
source.  Methods taking the receiver by const reference become pure
functions; the explicit-store programs near the end thread the operands
through the loops to express the frame conditions of the source.
-/

set_option linter.unusedSectionVars false

namespace CppLinAlg

/-- Exception classes thrown by the core together with their messages:
std::invalid_argument and std::out_of_range. -/
inductive Err : Type where
  | invalid_argument : String → Err
  | out_of_range : String → Err
deriving DecidableEq

/-- Catchable exception class of an error, without the message payload:
this is what a C++ catch clause can select on. -/
inductive ErrKind : Type where
  | invalidArgument : ErrKind
  | outOfRange : ErrKind
deriving DecidableEq

/-- Exception class of an error. -/
def Err.kind : Err → ErrKind
  | .invalid_argument _ => .invalidArgument
  | .out_of_range _ => .outOfRange

/-- Message (what()) of an error. -/
def Err.msg : Err → String
  | .invalid_argument s => s
  | .out_of_range s => s

/-- Whether a fallible operation succeeded. -/
def exIsOk {β : Type} : Except Err β → Bool
  | .ok _ => true
  | .error _ => false

/-- Exception class of a failed operation, none on success. -/
def exErrKind {β : Type} : Except Err β → Option ErrKind
  | .ok _ => none
  | .error e => some e.kind

/-- Model of the Matrix<T> class of src/include/matrix.hpp: dimensions and
the entry function; entry i j models the row-major cell data[i*cols+j]. -/
structure Mat (α : Type) where
  rows : ℕ
  cols : ℕ
  entry : ℕ → ℕ → α

section FieldDefs

variable {α : Type} [Field α]

/-- Class invariant of a constructed Matrix<T>: both dimensions positive. -/
def Mat.WF (m : Mat α) : Prop := 0 < m.rows ∧ 0 < m.cols

/-- Zero-initialized storage of a freshly constructed matrix. -/
def Mat.zeroM (r c : ℕ) : Mat α := ⟨r, c, fun _ _ => 0⟩

/-- Matrix(size_t r, size_t c): throws std::invalid_argument when a
dimension is 0, otherwise allocates and zero-initializes. -/
def Mat.construct (r c : ℕ) : Except Err (Mat α) :=
  if r = 0 ∨ c = 0 then
    .error (Err.invalid_argument ("Matrix dimensions must be positive"))
  else .ok (Mat.zeroM r c)

/-- Write through the mutable accessor at(i, j); used for in-bounds writes. -/
def Mat.set (m : Mat α) (i j : ℕ) (v : α) : Mat α :=
  ⟨m.rows, m.cols, fun a b => if a = i ∧ b = j then v else m.entry a b⟩

/-- Bounds-checked element access at(i, j): throws std::out_of_range when
an index is outside the matrix. -/
def Mat.atE (m : Mat α) (i j : ℕ) : Except Err α :=
  if i ≥ m.rows ∨ j ≥ m.cols then
    .error (Err.out_of_range ("Matrix index out of bounds"))
  else .ok (m.entry i j)

/-- Inner accumulation of operator*: T sum = T(); then sum += at(i,k) *
other.at(k,j) for k ascending from 0, exactly the source loop order. -/
def mulEntryFold (A B : Mat α) (i j : ℕ) : α :=
  (List.range A.cols).foldl (fun s k => s + A.entry i k * B.entry k j) 0

/-- Unchecked matrix product: the result matrix written by the triple loop
of operator* after the dimension check passed. -/
def matMulU (A B : Mat α) : Mat α :=
  ⟨A.rows, B.cols, fun i j =>
    if i < A.rows ∧ j < B.cols then mulEntryFold A B i j else 0⟩

/-- Matrix<T>::operator*: throws std::invalid_argument when
cols != other.rows, otherwise returns the triple-loop product. -/
def matMul (A B : Mat α) : Except Err (Mat α) :=
  if A.cols ≠ B.rows then
    .error (Err.invalid_argument ("Matrix dimensions mismatch for multiplication"))
  else .ok (matMulU A B)

/-- Model of Vector<T>: a matrix (size×1 when well formed) plus the
orientation flag, exactly the two data members of the source class. -/
structure Vec (α : Type) where
  data : Mat α
  is_column : Bool

/-- Class invariant of a constructed Vector<T>: an n×1 column with n > 0. -/
def Vec.WF (v : Vec α) : Prop := 0 < v.data.rows ∧ v.data.cols = 1

/-- Vector(size): delegates to Matrix(size, 1), column oriented. -/
def Vec.construct (n : ℕ) : Except Err (Vec α) :=
  (Mat.construct n 1).map (fun m => ⟨m, true⟩)

/-- size(): the underlying row count. -/
def Vec.size (v : Vec α) : ℕ := v.data.rows

/-- Element access at(i): delegates to the matrix cell (i, 0). -/
def Vec.atV (v : Vec α) (i : ℕ) : α := v.data.entry i 0

/-- Vector<T>::dot: throws std::invalid_argument on a size mismatch,
otherwise accumulates the element-wise products in loop order. -/
def Vec.dot (u other : Vec α) : Except Err α :=
  if u.data.rows ≠ other.data.rows then
    .error (Err.invalid_argument ("Vectors must have same dimension for dot product"))
  else
    .ok ((List.range u.data.rows).foldl
      (fun s i => s + u.data.entry i 0 * other.data.entry i 0) 0)

/-- Product of a matrix with the n×1 matrix underlying a vector, wrapped
back into a vector: the A×x a client forms before calling the solver. -/
def vecMulU (A : Mat α) (x : Vec α) : Vec α := ⟨matMulU A x.data, x.is_column⟩

/-- Row swap of reduced_row_echelon_form: std::swap(temp.at(i,j),
temp.at(r,j)) for every column j < cols. -/
def swapRows (t : Mat α) (i r : ℕ) : Mat α :=
  ⟨t.rows, t.cols, fun a b =>
    if b < t.cols then
      if a = i then t.entry r b else if a = r then t.entry i b else t.entry a b
    else t.entry a b⟩

/-- Row normalization of reduced_row_echelon_form: temp.at(r,j) /= div for
every column j < cols, with div read once before the loop. -/
def divideRow (t : Mat α) (r : ℕ) (d : α) : Mat α :=
  ⟨t.rows, t.cols, fun a b =>
    if a = r ∧ b < t.cols then t.entry a b / d else t.entry a b⟩

/-- Elimination of reduced_row_echelon_form: for every row a ≠ r below
rows, with mult = temp.at(a, lead) read before the row loop, subtract
temp.at(r,j) * mult from temp.at(a,j) for every column j < cols. -/
def eliminate (t : Mat α) (r lead : ℕ) : Mat α :=
  ⟨t.rows, t.cols, fun a b =>
    if a < t.rows ∧ a ≠ r ∧ b < t.cols then
      t.entry a b - t.entry r b * t.entry a lead
    else t.entry a b⟩

/-- Body of one completed iteration of the outer loop of
reduced_row_echelon_form once the pivot row i for column lead is found:
swap rows i and r, divide row r by the pivot value temp.at(r, lead), then
eliminate column lead from every other row. -/
def pivotStep (t : Mat α) (i r lead : ℕ) : Mat α :=
  let t1 := swapRows t i r
  let t2 := divideRow t1 r (t1.entry r lead)
  eliminate t2 r lead

/-- Three-by-three rotation about the X axis as written by rotation_x of
src/include/linalg.hpp; the cosine and sine of the angle enter as the two
scalar arguments (std::cos(angle) and std::sin(angle)), every cell not
assigned by the source stays at its zero initialization. -/
def rotation_x (cosA sinA : α) : Mat α :=
  (((((Mat.zeroM 3 3).set 0 0 1).set 1 1 cosA).set 1 2 (-sinA)).set 2 1 sinA).set 2 2 cosA

/-- Rotation about the Y axis, per rotation_y of src/include/linalg.hpp. -/
def rotation_y (cosA sinA : α) : Mat α :=
  (((((Mat.zeroM 3 3).set 0 0 cosA).set 0 2 sinA).set 1 1 1).set 2 0 (-sinA)).set 2 2 cosA

/-- Rotation about the Z axis, per rotation_z of src/include/linalg.hpp. -/
def rotation_z (cosA sinA : α) : Mat α :=
  (((((Mat.zeroM 3 3).set 0 0 cosA).set 0 1 (-sinA)).set 1 0 sinA).set 1 1 cosA).set 2 2 1

/-- Augmented matrix [A | b] of width A.cols + 1 assembled by
solve_linear_system before the reduction. -/
def augmentedOf (A : Mat α) (b : Vec α) : Mat α :=
  ⟨A.rows, A.cols + 1, fun i j =>
    if i < A.rows ∧ j < A.cols then A.entry i j
    else if i < A.rows ∧ j = A.cols then b.atV i
    else 0⟩

/-- Column c of the matrix holds 1 in row p and 0 in every other row. -/
def DeltaCol (t : Mat α) (p c : ℕ) : Prop :=
  t.entry p c = 1 ∧ ∀ i, i < t.rows → i ≠ p → t.entry i c = 0

/-- Column j of the matrix is 0 in every row from k down. -/
def ZeroBelow (t : Mat α) (k j : ℕ) : Prop :=
  ∀ i, k ≤ i → i < t.rows → t.entry i j = 0

/-- The listed columns are pivot columns for the consecutive rows starting
at r: each holds 1 in its pivot row and 0 elsewhere. -/
def PivCols (t : Mat α) : ℕ → List ℕ → Prop
  | _, [] => True
  | r, l :: rest => DeltaCol t r l ∧ PivCols t (r + 1) rest

/-- Every row from the pivot row down is 0 strictly left of its pivot
column, for the consecutive pivot rows starting at r. -/
def LeftZ (t : Mat α) : ℕ → List ℕ → Prop
  | _, [] => True
  | r, l :: rest => (∀ j, j < l → ZeroBelow t r j) ∧ LeftZ t (r + 1) rest

/-- Strictly increasing list with all members at least the bound. -/
def IncreasingFrom : ℕ → List ℕ → Prop
  | _, [] => True
  | lo, l :: rest => lo ≤ l ∧ IncreasingFrom (l + 1) rest

/-- The upper-left n×n block of the matrix has a trivial kernel. -/
def TrivKerL (t : Mat α) (n : ℕ) : Prop :=
  ∀ v : ℕ → α,
    (∀ i, i < n → (∑ j ∈ Finset.range n, t.entry i j * v j) = 0) →
    ∀ j, j < n → v j = 0

/-- The matrix agrees with the identity on the upper-left n×n block. -/
def IdLike (t : Mat α) (n : ℕ) : Prop :=
  ∀ i, i < n → ∀ j, j < n → t.entry i j = if i = j then 1 else 0

/-- Invertibility of a square matrix: a two-sided inverse exists. -/
def Mat.HasInverse (A : Mat α) : Prop :=
  ∃ B : Mat α, B.rows = A.rows ∧ B.cols = A.rows ∧
    IdLike (matMulU B A) A.rows ∧ IdLike (matMulU A B) A.rows

/-- Row i of the width-(n+1) augmented matrix is satisfied by x: the left
block applied to x reproduces the last column. -/
def AugOK (t : Mat α) (n : ℕ) (x : ℕ → α) : Prop :=
  ∀ i, i < n → (∑ j ∈ Finset.range n, t.entry i j * x j) = t.entry i n

end FieldDefs

section DecDefs

variable {α : Type} [Field α] [DecidableEq α]

/-- Scan of the while loop of reduced_row_echelon_form at a fixed column
lead: rows i, i+1, ... are tested against the zero element (fuel many of
them); the first row with a nonzero entry is returned. -/
def findRow (t : Mat α) (lead : ℕ) : ℕ → ℕ → Option ℕ
  | _, 0 => none
  | i, fuel + 1 => if t.entry i lead ≠ 0 then some i else findRow t lead (i + 1) fuel

/-- Full pivot search of the while loop: columns lead, lead+1, ... (fuel
many of them) are scanned from row r; the search is restarted at row r
whenever a column is exhausted, and none is returned when the columns run
out, which is the early return of the source when lead reaches cols. -/
def findPivot (t : Mat α) (r : ℕ) : ℕ → ℕ → Option (ℕ × ℕ)
  | _, 0 => none
  | lead, fuel + 1 =>
    match findRow t lead r (t.rows - r) with
    | some i => some (i, lead)
    | none => findPivot t r (lead + 1) fuel

/-- Outer loop of reduced_row_echelon_form over rows r with the lead
cursor, fuel = rows - r remaining iterations: the matrix is returned as
soon as the pivot search runs out of columns. -/
def rrefLoop : Mat α → ℕ → ℕ → ℕ → Mat α
  | t, _, _, 0 => t
  | t, r, lead, fuel + 1 =>
    match findPivot t r lead (t.cols - lead) with
    | none => t
    | some (i, l) => rrefLoop (pivotStep t i r l) (r + 1) (l + 1) fuel

/-- Matrix<T>::reduced_row_echelon_form: runs the lead-cursor elimination
on a copy of the receiver (the receiver itself, being taken by const
reference, is modelled as an immutable value). -/
def Mat.reduced_row_echelon_form (m : Mat α) : Mat α := rrefLoop m 0 0 m.rows

/-- Instrumented outer loop: identical matrix result, plus the list of
pivot columns chosen for the consecutive rows starting at r. -/
def rrefLoopP : Mat α → ℕ → ℕ → ℕ → Mat α × List ℕ
  | t, _, _, 0 => (t, [])
  | t, r, lead, fuel + 1 =>
    match findPivot t r lead (t.cols - lead) with
    | none => (t, [])
    | some (i, l) =>
      let rest := rrefLoopP (pivotStep t i r l) (r + 1) (l + 1) fuel
      (rest.1, l :: rest.2)

/-- linalg::solve_linear_system: throws std::invalid_argument unless A is
square with A.rows = b.size(); otherwise reduces the augmented matrix and
reads the solution from its last column. -/
def solve_linear_system (A : Mat α) (b : Vec α) : Except Err (Vec α) :=
  if A.rows ≠ A.cols ∨ A.rows ≠ b.size then
    .error (Err.invalid_argument ("Invalid dimensions for linear system"))
  else
    let reduced := (augmentedOf A b).reduced_row_echelon_form
    .ok ⟨⟨b.size, 1, fun i j => if i < b.size ∧ j = 0 then reduced.entry i A.cols else 0⟩, true⟩

/-- Component i of the solver result, 0 when the solver failed; used to
state concrete solver evaluations. -/
def solAt (A : Mat α) (b : Vec α) (i : ℕ) : α :=
  match solve_linear_system A b with
  | .ok s => s.atV i
  | .error _ => 0

/-- One step of the literal while loop of the pivot search, from the state
(i, lead): on a nonzero entry the loop exits with the pivot; otherwise i
is incremented, and when it reaches rows the search restarts at row r with
lead+1, returning early (inr none) when lead+1 reaches cols. -/
def searchStep (t : Mat α) (r : ℕ) : ℕ × ℕ → (ℕ × ℕ) ⊕ Option (ℕ × ℕ) :=
  fun s =>
    if t.entry s.1 s.2 ≠ 0 then Sum.inr (some (s.1, s.2))
    else if s.1 + 1 = t.rows then
      (if s.2 + 1 = t.cols then Sum.inr none else Sum.inl (r, s.2 + 1))
    else Sum.inl (s.1 + 1, s.2)

/-- Fueled interpreter of the while loop: none means the fuel ran out
before the loop finished, some res means the loop terminated with result
res (a pivot, or the early return when lead reached cols). -/
def searchRun (t : Mat α) (r : ℕ) : ℕ → ℕ × ℕ → Option (Option (ℕ × ℕ))
  | 0, _ => none
  | fuel + 1, s =>
    match searchStep t r s with
    | Sum.inr res => some res
    | Sum.inl s2 => searchRun t r fuel s2

end DecDefs

section StoreDefs

variable {α : Type} [Field α]

/-- Caller-owned operands of operator*: the receiver and the argument. -/
structure MulSt (α : Type) where
  fstM : Mat α
  sndM : Mat α

/-- Inner k accumulation of operator*, reading the operands from the
threaded store. -/
def mulCellFold (s : MulSt α) (i j : ℕ) : α :=
  (List.range s.fstM.cols).foldl (fun acc k => acc + s.fstM.entry i k * s.sndM.entry k j) 0

/-- Column loop of operator*, threading the operand store and writing only
the local result matrix. -/
def mulLoopJ (s : MulSt α) (res : Mat α) (i : ℕ) : ℕ → MulSt α × Mat α
  | 0 => (s, res)
  | j + 1 =>
    let p := mulLoopJ s res i j
    (p.1, p.2.set i j (mulCellFold p.1 i j))

/-- Row loop of operator*, threading the operand store. -/
def mulLoopI (s : MulSt α) (res : Mat α) : ℕ → MulSt α × Mat α
  | 0 => (s, res)
  | i + 1 =>
    let p := mulLoopI s res i
    mulLoopJ p.1 p.2 i p.1.sndM.cols

/-- operator* as a store program: the operands are threaded through the
dimension check and the loops; the result is a fresh local matrix. -/
def mulProg (A B : Mat α) : MulSt α × Except Err (Mat α) :=
  let s : MulSt α := ⟨A, B⟩
  if s.fstM.cols ≠ s.sndM.rows then
    (s, .error (Err.invalid_argument ("Matrix dimensions mismatch for multiplication")))
  else
    let p := mulLoopI s (Mat.zeroM s.fstM.rows s.sndM.cols) s.fstM.rows
    (p.1, .ok p.2)

/-- Caller-owned operands of Vector<T>::dot. -/
structure DotSt (α : Type) where
  uV : Vec α
  vV : Vec α

/-- Accumulation loop of dot, threading the operand store; only the local
accumulator changes. -/
def dotLoop (s : DotSt α) (acc : α) : ℕ → DotSt α × α
  | 0 => (s, acc)
  | n + 1 =>
    let p := dotLoop s acc n
    (p.1, p.2 + p.1.uV.data.entry n 0 * p.1.vV.data.entry n 0)

/-- dot as a store program. -/
def dotProg (u other : Vec α) : DotSt α × Except Err α :=
  let s : DotSt α := ⟨u, other⟩
  if s.uV.data.rows ≠ s.vV.data.rows then
    (s, .error (Err.invalid_argument ("Vectors must have same dimension for dot product")))
  else
    let p := dotLoop s 0 s.uV.data.rows
    (p.1, .ok p.2)

/-- Caller-owned operands of solve_linear_system. -/
structure SolveSt (α : Type) where
  aM : Mat α
  bV : Vec α

/-- Column loop copying row i of A into the augmented local. -/
def augRowLoop (s : SolveSt α) (m : Mat α) (i : ℕ) : ℕ → SolveSt α × Mat α
  | 0 => (s, m)
  | j + 1 =>
    let p := augRowLoop s m i j
    (p.1, p.2.set i j (p.1.aM.entry i j))

/-- Row loop building the augmented local [A | b]. -/
def augLoop (s : SolveSt α) (m : Mat α) : ℕ → SolveSt α × Mat α
  | 0 => (s, m)
  | i + 1 =>
    let p := augLoop s m i
    let q := augRowLoop p.1 p.2 i p.1.aM.cols
    (q.1, q.2.set i q.1.aM.cols (q.1.bV.atV i))

/-- Extraction loop copying the last column of the reduced local into the
solution local. -/
def extractLoop (s : SolveSt α) (reduced sol : Mat α) : ℕ → SolveSt α × Mat α
  | 0 => (s, sol)
  | i + 1 =>
    let p := extractLoop s reduced sol i
    (p.1, p.2.set i 0 (reduced.entry i p.1.aM.cols))

end StoreDefs

section SolveStore

variable {α : Type} [Field α] [DecidableEq α]

/-- solve_linear_system as a store program: the operands A and b are
threaded through the check, the augmented construction, the reduction of
the local copy, and the extraction. -/
def solveProg (A : Mat α) (b : Vec α) : SolveSt α × Except Err (Vec α) :=
  let s : SolveSt α := ⟨A, b⟩
  if s.aM.rows ≠ s.aM.cols ∨ s.aM.rows ≠ s.bV.size then
    (s, .error (Err.invalid_argument ("Invalid dimensions for linear system")))
  else
    let p := augLoop s (Mat.zeroM s.aM.rows (s.aM.cols + 1)) s.aM.rows
    let reduced := p.2.reduced_row_echelon_form
    let q := extractLoop p.1 reduced (Mat.zeroM p.1.bV.size 1) p.1.bV.size
    (q.1, .ok ⟨q.2, true⟩)

end SolveStore

/-- Concrete 2×2 matrix [[1,2],[3,4]] from the documented multiplication
example. -/
def m12 : Mat ℚ :=
  ⟨2, 2, fun i j =>
    if i = 0 ∧ j = 0 then 1 else if i = 0 ∧ j = 1 then 2
    else if i = 1 ∧ j = 0 then 3 else 4⟩

/-- Concrete 2×2 matrix [[5,6],[7,8]] from the documented multiplication
example. -/
def m56 : Mat ℚ :=
  ⟨2, 2, fun i j =>
    if i = 0 ∧ j = 0 then 5 else if i = 0 ∧ j = 1 then 6
    else if i = 1 ∧ j = 0 then 7 else 8⟩

/-- Concrete 2×2 matrix [[0,3],[2,4]] whose reduction exercises a row
swap. -/
def mPivotDemo : Mat ℚ :=
  ⟨2, 2, fun i j =>
    if i = 0 ∧ j = 0 then 0 else if i = 0 ∧ j = 1 then 3
    else if i = 1 ∧ j = 0 then 2 else 4⟩

/-- Concrete 1×2 all-ones matrix, used for shape-mismatch evaluations. -/
def mRect : Mat ℚ := ⟨1, 2, fun _ _ => 1⟩

/-- Concrete coefficient matrix [[3,2],[1,1]] of the documented solver
example. -/
def mSolveA : Mat ℚ :=
  ⟨2, 2, fun i j =>
    if i = 0 ∧ j = 0 then 3 else if i = 0 ∧ j = 1 then 2
    else if i = 1 ∧ j = 0 then 1 else 1⟩

/-- Concrete inverse [[1,-2],[-1,3]] of mSolveA. -/
def mSolveAInv : Mat ℚ :=
  ⟨2, 2, fun i j =>
    if i = 0 ∧ j = 0 then 1 else if i = 0 ∧ j = 1 then -2
    else if i = 1 ∧ j = 0 then -1 else 3⟩

/-- Concrete vector (1, 2). -/
def vX : Vec ℚ := ⟨⟨2, 1, fun i _ => if i = 0 then 1 else 2⟩, true⟩

/-- Concrete singular 2×2 all-ones matrix. -/
def mSing : Mat ℚ := ⟨2, 2, fun _ _ => 1⟩

/-- Concrete vector (1, 1). -/
def vOnes : Vec ℚ := ⟨⟨2, 1, fun _ _ => 1⟩, true⟩

section BasicLemmas

variable {α : Type} [Field α]

theorem Mat.ext_rce {A B : Mat α} (hr : A.rows = B.rows) (hc : A.cols = B.cols)
    (he : A.entry = B.entry) : A = B := by
  cases A; cases B; simp_all

@[simp] theorem swapRows_rows (t : Mat α) (i r : ℕ) : (swapRows t i r).rows = t.rows := rfl

@[simp] theorem swapRows_cols (t : Mat α) (i r : ℕ) : (swapRows t i r).cols = t.cols := rfl

@[simp] theorem divideRow_rows (t : Mat α) (r : ℕ) (d : α) : (divideRow t r d).rows = t.rows := rfl

@[simp] theorem divideRow_cols (t : Mat α) (r : ℕ) (d : α) : (divideRow t r d).cols = t.cols := rfl

@[simp] theorem eliminate_rows (t : Mat α) (r l : ℕ) : (eliminate t r l).rows = t.rows := rfl

@[simp] theorem eliminate_cols (t : Mat α) (r l : ℕ) : (eliminate t r l).cols = t.cols := rfl

@[simp] theorem pivotStep_rows (t : Mat α) (i r l : ℕ) : (pivotStep t i r l).rows = t.rows := rfl

@[simp] theorem pivotStep_cols (t : Mat α) (i r l : ℕ) : (pivotStep t i r l).cols = t.cols := rfl

theorem swapRows_entry (t : Mat α) (i r a b : ℕ) (hb : b < t.cols) :
    (swapRows t i r).entry a b =
      if a = i then t.entry r b else if a = r then t.entry i b else t.entry a b := by
  simp [swapRows, hb]

theorem divideRow_entry_eq (t : Mat α) (r : ℕ) (d : α) (b : ℕ) (hb : b < t.cols) :
    (divideRow t r d).entry r b = t.entry r b / d := by
  simp [divideRow, hb]

theorem divideRow_entry_ne (t : Mat α) (r : ℕ) (d : α) (a b : ℕ) (ha : a ≠ r) :
    (divideRow t r d).entry a b = t.entry a b := by
  simp [divideRow, ha]

theorem eliminate_entry_in (t : Mat α) (r l a b : ℕ) (harows : a < t.rows) (ha : a ≠ r)
    (hb : b < t.cols) :
    (eliminate t r l).entry a b = t.entry a b - t.entry r b * t.entry a l := by
  simp [eliminate, harows, ha, hb]

theorem eliminate_entry_r (t : Mat α) (r l b : ℕ) :
    (eliminate t r l).entry r b = t.entry r b := by
  simp [eliminate]

theorem foldl_range_add (f : ℕ → α) : ∀ n : ℕ,
    (List.range n).foldl (fun s k => s + f k) 0 = ∑ k ∈ Finset.range n, f k := by
  intro n
  induction n with
  | zero => simp
  | succ n ih =>
    rw [List.range_succ, List.foldl_append, ih, Finset.sum_range_succ]
    simp

end BasicLemmas

section EasyClaims

variable {α : Type} [Field α] [DecidableEq α]

/-- C6: Matrix construction Matrix(r, c) fails (with std::invalid_argument
and the source message) exactly when r = 0 or c = 0, and on success yields
a matrix of shape (r, c) with every entry equal to the additive identity
of the scalar type. -/
theorem claim6_construct_spec (r c : ℕ) :
    ((Mat.construct r c = (.error (Err.invalid_argument ("Matrix dimensions must be positive")) : Except Err (Mat α)))
      ↔ (r = 0 ∨ c = 0)) ∧
    (r ≠ 0 → c ≠ 0 → Mat.construct r c = (.ok (Mat.zeroM r c) : Except Err (Mat α))) ∧
    (Mat.zeroM r c : Mat α).rows = r ∧ (Mat.zeroM r c : Mat α).cols = c ∧
    (∀ i j : ℕ, (Mat.zeroM r c : Mat α).entry i j = 0) := by
  refine ⟨?_, ?_, rfl, rfl, fun i j => rfl⟩
  · constructor
    · intro h
      by_contra hcon
      push_neg at hcon
      simp [Mat.construct, hcon.1, hcon.2] at h
    · intro h
      simp [Mat.construct, h]
  · intro h1 h2
    simp [Mat.construct, h1, h2]

/-- C6 witness: success at (2, 3) with an all-zero result, failure at
(0, 3). -/
theorem claim6_construct_spec_witness :
    Mat.construct 2 3 = (.ok (Mat.zeroM 2 3) : Except Err (Mat ℚ)) ∧
    (Mat.construct 0 3 = (.error (Err.invalid_argument ("Matrix dimensions must be positive")) : Except Err (Mat ℚ))) := by
  constructor
  · exact (claim6_construct_spec 2 3).2.1 (by decide) (by decide)
  · exact ((claim6_construct_spec (α := ℚ) 0 3).1).mpr (by decide)

/-- C3: operator* fails exactly when the column count of the receiver differs
from the row count of the argument; on success the result has shape
(rows, other.cols) and its entry (i, j) is the naive ascending-k
accumulation, equal to the sum of products over the shared dimension; the
documented 2×2 example evaluates to [[19,22],[43,50]] exactly. -/
theorem claim3_mul_spec :
    (∀ A B : Mat α,
      ((exIsOk (matMul A B) = true) ↔ A.cols = B.rows) ∧
      (A.cols ≠ B.rows →
        matMul A B = .error (Err.invalid_argument ("Matrix dimensions mismatch for multiplication"))) ∧
      (A.cols = B.rows → matMul A B = .ok (matMulU A B)) ∧
      (matMulU A B).rows = A.rows ∧ (matMulU A B).cols = B.cols ∧
      (∀ i, i < A.rows → ∀ j, j < B.cols →
        (matMulU A B).entry i j = mulEntryFold A B i j ∧
        (matMulU A B).entry i j = ∑ k ∈ Finset.range A.cols, A.entry i k * B.entry k j)) ∧
    ((matMulU m12 m56).entry 0 0 = 19 ∧ (matMulU m12 m56).entry 0 1 = 22 ∧
      (matMulU m12 m56).entry 1 0 = 43 ∧ (matMulU m12 m56).entry 1 1 = 50 ∧
      matMul m12 m56 = .ok (matMulU m12 m56)) := by
  constructor
  · intro A B
    refine ⟨?_, ?_, ?_, rfl, rfl, ?_⟩
    · constructor
      · intro h
        by_contra hcon
        simp [matMul, hcon, exIsOk] at h
      · intro h
        simp [matMul, h, exIsOk]
    · intro h
      simp [matMul, h]
    · intro h
      simp [matMul, h]
    · intro i hi j hj
      refine ⟨by simp [matMulU, hi, hj], ?_⟩
      simp [matMulU, hi, hj, mulEntryFold, foldl_range_add]
  · refine ⟨?_, ?_, ?_, ?_, by simp [matMul, m12, m56]⟩ <;>
      norm_num [matMulU, mulEntryFold, m12, m56, List.range_succ]

/-- C3 witness: the success branch and the entry formula evaluated at the
documented concrete example. -/
theorem claim3_mul_spec_witness :
    matMul m12 m56 = .ok (matMulU m12 m56) ∧
    (matMulU m12 m56).entry 0 0 = ∑ k ∈ Finset.range m12.cols, m12.entry 0 k * m56.entry k 0 := by
  constructor
  · exact ((claim3_mul_spec.1 m12 m56).2.2.1) (by decide)
  · exact ((claim3_mul_spec.1 m12 m56).2.2.2.2.2 0 (by decide) 0 (by decide)).2

/-- C8: the three rotation builders return exactly the standard
right-handed 3×3 rotation matrices about their axes: every cell carries
the trigonometric value the formula places there (the arguments cosA and
sinA stand for std::cos(angle) and std::sin(angle)), and every cell not in
the nonzero pattern of the formula keeps its zero initialization; the final
conjuncts instantiate rotation_z at the real cosine and sine of an
arbitrary angle in radians. -/
theorem claim8_rotation_entries :
    (∀ cosA sinA : α,
      (rotation_x cosA sinA).rows = 3 ∧ (rotation_x cosA sinA).cols = 3 ∧
      (rotation_x cosA sinA).entry 0 0 = 1 ∧ (rotation_x cosA sinA).entry 0 1 = 0 ∧
      (rotation_x cosA sinA).entry 0 2 = 0 ∧ (rotation_x cosA sinA).entry 1 0 = 0 ∧
      (rotation_x cosA sinA).entry 1 1 = cosA ∧ (rotation_x cosA sinA).entry 1 2 = -sinA ∧
      (rotation_x cosA sinA).entry 2 0 = 0 ∧ (rotation_x cosA sinA).entry 2 1 = sinA ∧
      (rotation_x cosA sinA).entry 2 2 = cosA) ∧
    (∀ cosA sinA : α,
      (rotation_y cosA sinA).rows = 3 ∧ (rotation_y cosA sinA).cols = 3 ∧
      (rotation_y cosA sinA).entry 0 0 = cosA ∧ (rotation_y cosA sinA).entry 0 1 = 0 ∧
      (rotation_y cosA sinA).entry 0 2 = sinA ∧ (rotation_y cosA sinA).entry 1 0 = 0 ∧
      (rotation_y cosA sinA).entry 1 1 = 1 ∧ (rotation_y cosA sinA).entry 1 2 = 0 ∧
      (rotation_y cosA sinA).entry 2 0 = -sinA ∧ (rotation_y cosA sinA).entry 2 1 = 0 ∧
      (rotation_y cosA sinA).entry 2 2 = cosA) ∧
    (∀ cosA sinA : α,
      (rotation_z cosA sinA).rows = 3 ∧ (rotation_z cosA sinA).cols = 3 ∧
      (rotation_z cosA sinA).entry 0 0 = cosA ∧ (rotation_z cosA sinA).entry 0 1 = -sinA ∧
      (rotation_z cosA sinA).entry 0 2 = 0 ∧ (rotation_z cosA sinA).entry 1 0 = sinA ∧
      (rotation_z cosA sinA).entry 1 1 = cosA ∧ (rotation_z cosA sinA).entry 1 2 = 0 ∧
      (rotation_z cosA sinA).entry 2 0 = 0 ∧ (rotation_z cosA sinA).entry 2 1 = 0 ∧
      (rotation_z cosA sinA).entry 2 2 = 1) ∧
    (∀ angle : ℝ,
      (rotation_z (Real.cos angle) (Real.sin angle)).entry 0 0 = Real.cos angle ∧
      (rotation_z (Real.cos angle) (Real.sin angle)).entry 0 1 = -Real.sin angle ∧
      (rotation_z (Real.cos angle) (Real.sin angle)).entry 1 0 = Real.sin angle ∧
      (rotation_z (Real.cos angle) (Real.sin angle)).entry 1 1 = Real.cos angle ∧
      (rotation_z (Real.cos angle) (Real.sin angle)).entry 2 2 = 1 ∧
      (rotation_z (Real.cos angle) (Real.sin angle)).entry 0 2 = 0 ∧
      (rotation_z (Real.cos angle) (Real.sin angle)).entry 1 2 = 0 ∧
      (rotation_z (Real.cos angle) (Real.sin angle)).entry 2 0 = 0 ∧
      (rotation_z (Real.cos angle) (Real.sin angle)).entry 2 1 = 0) := by
  refine ⟨fun cosA sinA => ?_, fun cosA sinA => ?_, fun cosA sinA => ?_, fun angle => ?_⟩
  · exact ⟨rfl, rfl, rfl, rfl, rfl, rfl, rfl, rfl, rfl, rfl, rfl⟩
  · exact ⟨rfl, rfl, rfl, rfl, rfl, rfl, rfl, rfl, rfl, rfl, rfl⟩
  · exact ⟨rfl, rfl, rfl, rfl, rfl, rfl, rfl, rfl, rfl, rfl, rfl⟩
  · exact ⟨rfl, rfl, rfl, rfl, rfl, rfl, rfl, rfl, rfl⟩

/-- C7 counterexample: zero-dimension construction and mismatched
multiplication fail with the same catchable exception class
(std::invalid_argument), so the two failure kinds are not distinct at the
exception-type level the way the claim asserts. -/
theorem claim7_counterexample :
    exErrKind (Mat.construct (α := ℚ) 0 1) = some ErrKind.invalidArgument ∧
    exErrKind (matMul mRect mRect) = some ErrKind.invalidArgument ∧
    exErrKind (Mat.construct (α := ℚ) 0 1) = exErrKind (matMul mRect mRect) := by
  refine ⟨by decide, by decide, by decide⟩

/-- C7 amended: every shape-mismatch failure of multiplication, dot
product, and linear-system setup raises std::invalid_argument, the same
exception class as zero-dimension construction; the four sites are
distinguishable only by their what() messages, which are pairwise
distinct, while bounds-checked access raises the genuinely distinct class
std::out_of_range. -/
theorem claim7_error_messages :
    (∀ r c : ℕ, r = 0 ∨ c = 0 →
      Mat.construct r c =
        (.error (Err.invalid_argument ("Matrix dimensions must be positive")) : Except Err (Mat α))) ∧
    (∀ A B : Mat α, A.cols ≠ B.rows →
      matMul A B = .error (Err.invalid_argument ("Matrix dimensions mismatch for multiplication"))) ∧
    (∀ u v : Vec α, u.data.rows ≠ v.data.rows →
      Vec.dot u v = .error (Err.invalid_argument ("Vectors must have same dimension for dot product"))) ∧
    (∀ A : Mat α, ∀ b : Vec α, ¬(A.rows = A.cols ∧ A.rows = b.size) →
      solve_linear_system A b = .error (Err.invalid_argument ("Invalid dimensions for linear system"))) ∧
    (∀ m : Mat α, ∀ i j : ℕ, i ≥ m.rows ∨ j ≥ m.cols →
      Mat.atE m i j = .error (Err.out_of_range ("Matrix index out of bounds"))) ∧
    (Err.invalid_argument ("Matrix dimensions must be positive")).kind =
      (Err.invalid_argument ("Matrix dimensions mismatch for multiplication")).kind ∧
    (Err.invalid_argument ("Matrix dimensions must be positive")).kind ≠
      (Err.out_of_range ("Matrix index out of bounds")).kind ∧
    ("Matrix dimensions must be positive" ≠ "Matrix dimensions mismatch for multiplication") ∧
    ("Matrix dimensions must be positive" ≠ "Vectors must have same dimension for dot product") ∧
    ("Matrix dimensions must be positive" ≠ "Invalid dimensions for linear system") ∧
    ("Matrix dimensions mismatch for multiplication" ≠ "Vectors must have same dimension for dot product") ∧
    ("Matrix dimensions mismatch for multiplication" ≠ "Invalid dimensions for linear system") ∧
    ("Vectors must have same dimension for dot product" ≠ "Invalid dimensions for linear system") := by
  classical
  refine ⟨?_, ?_, ?_, ?_, ?_, rfl, by decide, by decide, by decide, by decide, by decide,
    by decide, by decide⟩
  · intro r c h
    rw [Mat.construct, if_pos h]
  · intro A B h
    rw [matMul, if_pos h]
  · intro u v h
    rw [Vec.dot, if_pos h]
  · intro A b h
    have h2 : A.rows ≠ A.cols ∨ A.rows ≠ b.size := by tauto
    rw [solve_linear_system]
    simp only [if_pos h2]
  · intro m i j h
    rw [Mat.atE, if_pos h]

/-- C7 amended witness: the message-level distinction evaluated at a
failing construction and a failing multiplication. -/
theorem claim7_error_messages_witness :
    Mat.construct 0 1 =
      (.error (Err.invalid_argument ("Matrix dimensions must be positive")) : Except Err (Mat ℚ)) ∧
    matMul mRect mRect =
      .error (Err.invalid_argument ("Matrix dimensions mismatch for multiplication")) := by
  constructor
  · exact (claim7_error_messages (α := ℚ)).1 0 1 (by decide)
  · exact (claim7_error_messages (α := ℚ)).2.1 mRect mRect (by decide)

end EasyClaims

section StoreClaims

variable {α : Type} [Field α] [DecidableEq α]

theorem mulLoopJ_fst (s : MulSt α) (res : Mat α) (i : ℕ) :
    ∀ n, (mulLoopJ s res i n).1 = s := by
  intro n
  induction n with
  | zero => rfl
  | succ n ih => simp [mulLoopJ, ih]

theorem mulLoopI_fst (s : MulSt α) (res : Mat α) :
    ∀ n, (mulLoopI s res n).1 = s := by
  intro n
  induction n with
  | zero => rfl
  | succ n ih => simp [mulLoopI, mulLoopJ_fst, ih]

theorem dotLoop_fst (s : DotSt α) (acc : α) : ∀ n, (dotLoop s acc n).1 = s := by
  intro n
  induction n with
  | zero => rfl
  | succ n ih => simp [dotLoop, ih]

theorem augRowLoop_fst (s : SolveSt α) (m : Mat α) (i : ℕ) :
    ∀ n, (augRowLoop s m i n).1 = s := by
  intro n
  induction n with
  | zero => rfl
  | succ n ih => simp [augRowLoop, ih]

theorem augLoop_fst (s : SolveSt α) (m : Mat α) : ∀ n, (augLoop s m n).1 = s := by
  intro n
  induction n with
  | zero => rfl
  | succ n ih => simp [augLoop, augRowLoop_fst, ih]

theorem extractLoop_fst (s : SolveSt α) (reduced sol : Mat α) :
    ∀ n, (extractLoop s reduced sol n).1 = s := by
  intro n
  induction n with
  | zero => rfl
  | succ n ih => simp [extractLoop, ih]

/-- C10: multiplication, dot product, and the linear solver leave their
operands unchanged.  Each operation is modelled as a store program
threading the caller-owned operands through the dimension check and every
loop iteration, with all writes going to freshly allocated locals; whether
it finishes with a result or with an error, the operand components of the
final store equal the operands passed in, dimensions and entries alike. -/
theorem claim10_frame (A B : Mat α) (u v : Vec α) (A2 : Mat α) (b : Vec α) :
    (mulProg A B).1.fstM = A ∧ (mulProg A B).1.sndM = B ∧
    (dotProg u v).1.uV = u ∧ (dotProg u v).1.vV = v ∧
    (solveProg A2 b).1.aM = A2 ∧ (solveProg A2 b).1.bV = b := by
  refine ⟨?_, ?_, ?_, ?_, ?_, ?_⟩
  · by_cases h : A.cols ≠ B.rows <;> simp [mulProg, h, mulLoopI_fst]
  · by_cases h : A.cols ≠ B.rows <;> simp [mulProg, h, mulLoopI_fst]
  · by_cases h : u.data.rows ≠ v.data.rows <;> simp [dotProg, h, dotLoop_fst]
  · by_cases h : u.data.rows ≠ v.data.rows <;> simp [dotProg, h, dotLoop_fst]
  · by_cases h : A2.rows ≠ A2.cols ∨ A2.rows ≠ b.size <;>
      simp [solveProg, h, augLoop_fst, extractLoop_fst]
  · by_cases h : A2.rows ≠ A2.cols ∨ A2.rows ≠ b.size <;>
      simp [solveProg, h, augLoop_fst, extractLoop_fst]

end StoreClaims

section SearchClaims

variable {α : Type} [Field α] [DecidableEq α]

theorem searchRun_eq (t : Mat α) (r : ℕ) :
    ∀ fuel i lead, r ≤ i → i < t.rows → lead < t.cols →
    (t.cols - 1 - lead) * t.rows + (t.rows - i) < fuel →
    searchRun t r fuel (i, lead) =
      some (match findRow t lead i (t.rows - i) with
            | some i2 => some (i2, lead)
            | none => findPivot t r (lead + 1) (t.cols - (lead + 1))) := by
  intro fuel
  induction fuel with
  | zero => intro i lead _ _ _ hm; omega
  | succ fuel ih =>
    intro i lead hri hi hlead hm
    have hrowfuel : t.rows - i = (t.rows - i - 1) + 1 := by omega
    rw [searchRun]
    by_cases hz : t.entry i lead = 0
    · have hz2 : ¬ t.entry i lead ≠ 0 := not_not_intro hz
      simp only [searchStep, if_neg hz2]
      by_cases hrow : i + 1 = t.rows
      · by_cases hcol : lead + 1 = t.cols
        · simp only [if_pos hrow, if_pos hcol]
          rw [hrowfuel]
          simp only [findRow, if_neg hz2]
          have h1 : t.rows - i - 1 = 0 := by omega
          rw [h1]
          simp only [findRow]
          have h2 : t.cols - (lead + 1) = 0 := by omega
          rw [h2]
          simp only [findPivot]
        · simp only [if_pos hrow, if_neg hcol]
          have hlead2 : lead + 1 < t.cols := by omega
          have hm2 : (t.cols - 1 - (lead + 1)) * t.rows + (t.rows - r) < fuel := by
            have e1 : t.cols - 1 - (lead + 1) = (t.cols - 1 - lead) - 1 := by omega
            have e2 : ((t.cols - 1 - lead) - 1) * t.rows = (t.cols - 1 - lead) * t.rows - t.rows :=
              Nat.sub_one_mul _ _
            have e3 : t.rows ≤ (t.cols - 1 - lead) * t.rows :=
              Nat.le_mul_of_pos_left t.rows (by omega)
            rw [e1, e2]
            omega
          rw [ih r (lead + 1) le_rfl (by omega) hlead2 hm2]
          rw [hrowfuel]
          simp only [findRow, if_neg hz2]
          have h1 : t.rows - i - 1 = 0 := by omega
          rw [h1]
          simp only [findRow]
          have h2 : t.cols - (lead + 1) = (t.cols - (lead + 1) - 1) + 1 := by omega
          rw [h2]
          simp only [findPivot]
          have h3 : t.cols - (lead + 1) - 1 = t.cols - (lead + 1 + 1) := by omega
          rw [h3]
      · simp only [if_neg hrow]
        have hm2 : (t.cols - 1 - lead) * t.rows + (t.rows - (i + 1)) < fuel := by omega
        rw [ih (i + 1) lead (by omega) (by omega) hlead hm2]
        rw [hrowfuel]
        simp only [findRow, if_neg hz2]
        have h3 : t.rows - i - 1 = t.rows - (i + 1) := by omega
        rw [h3]
    · simp only [searchStep, if_pos hz]
      rw [hrowfuel]
      simp only [findRow, if_pos hz]

/-- C9: the inner pivot-search while loop of reduced_row_echelon_form
always terminates.  The loop is embedded literally as a step function on
the state (i, lead) and a fueled interpreter; from any loop entry state
(r, lead) the interpreter finishes within cols*rows + 1 steps (never
exhausting its fuel), and its result agrees with the structured
column-then-row search findPivot used by the embedded algorithm. -/
theorem claim9_search_terminates (t : Mat α) (r lead : ℕ)
    (hr : r < t.rows) (hlead : lead < t.cols) :
    (searchRun t r (t.cols * t.rows + 1) (r, lead)).isSome = true ∧
    searchRun t r (t.cols * t.rows + 1) (r, lead) =
      some (findPivot t r lead (t.cols - lead)) := by
  have hmain : searchRun t r (t.cols * t.rows + 1) (r, lead) =
      some (findPivot t r lead (t.cols - lead)) := by
    have hm : (t.cols - 1 - lead) * t.rows + (t.rows - r) < t.cols * t.rows + 1 := by
      have e1 : (t.cols - 1 - lead) * t.rows ≤ (t.cols - 1) * t.rows :=
        Nat.mul_le_mul_right _ (by omega)
      have e2 : (t.cols - 1) * t.rows = t.cols * t.rows - t.rows := Nat.sub_one_mul _ _
      have e3 : t.rows ≤ t.cols * t.rows := Nat.le_mul_of_pos_left t.rows (by omega)
      omega
    rw [searchRun_eq t r (t.cols * t.rows + 1) r lead le_rfl hr hlead hm]
    have h2 : t.cols - lead = (t.cols - lead - 1) + 1 := by omega
    rw [h2, findPivot]
    have h3 : t.cols - lead - 1 = t.cols - (lead + 1) := by omega
    rw [h3]
  exact ⟨by rw [hmain]; rfl, hmain⟩

/-- C9 witness: the interpreter run on a concrete matrix whose first
column needs one reset, agreeing with the structured search. -/
theorem claim9_search_terminates_witness :
    (searchRun mPivotDemo 0 (2 * 2 + 1) (0, 0)).isSome = true ∧
    searchRun mPivotDemo 0 (2 * 2 + 1) (0, 0) =
      some (findPivot mPivotDemo 0 0 (2 - 0)) := by
  exact claim9_search_terminates mPivotDemo 0 0 (by decide) (by decide)

end SearchClaims

section SolveShapeClaim

variable {α : Type} [Field α] [DecidableEq α]

/-- C4: solve_linear_system fails exactly when A is not square or
A.rows differs from b.size(); when it succeeds it builds the augmented
matrix [A | b] of width A.cols + 1, reduces it with
reduced_row_echelon_form, and returns the vector read from the last
column of the reduced matrix.  There is no singularity detection: the
concrete singular system mSing · x = vOnes still succeeds and returns
whatever the reduction left in the last column, namely (1, 0). -/
theorem claim4_solve_shape (A : Mat α) (b : Vec α) (hA : A.WF) (hb : b.WF) :
    ((exIsOk (solve_linear_system A b) = true) ↔ (A.rows = A.cols ∧ A.rows = b.size)) ∧
    ((augmentedOf A b).rows = A.rows ∧ (augmentedOf A b).cols = A.cols + 1) ∧
    (∀ i, i < A.rows → ∀ j, j < A.cols → (augmentedOf A b).entry i j = A.entry i j) ∧
    (∀ i, i < A.rows → (augmentedOf A b).entry i A.cols = b.atV i) ∧
    (A.rows = A.cols → A.rows = b.size →
      solve_linear_system A b = .ok ⟨⟨b.size, 1, fun i j =>
        if i < b.size ∧ j = 0 then (augmentedOf A b).reduced_row_echelon_form.entry i A.cols
        else 0⟩, true⟩) ∧
    (¬(A.rows = A.cols ∧ A.rows = b.size) →
      solve_linear_system A b = .error (Err.invalid_argument ("Invalid dimensions for linear system"))) ∧
    (exIsOk (solve_linear_system mSing vOnes) = true ∧
      solAt mSing vOnes 0 = 1 ∧ solAt mSing vOnes 1 = 0) := by
  classical
  refine ⟨?_, ⟨rfl, rfl⟩, ?_, ?_, ?_, ?_, ?_, ?_, ?_⟩
  · constructor
    · intro h
      by_contra hcon
      have h2 : A.rows ≠ A.cols ∨ A.rows ≠ b.size := by tauto
      rw [solve_linear_system] at h
      simp only [if_pos h2] at h
      simp [exIsOk] at h
    · intro h
      have h2 : ¬(A.rows ≠ A.cols ∨ A.rows ≠ b.size) := by tauto
      rw [solve_linear_system]
      simp only [if_neg h2]
      rfl
  · intro i hi j hj
    simp [augmentedOf, hi, hj]
  · intro i hi
    simp [augmentedOf, hi]
  · intro h1 h2
    have h3 : ¬(A.rows ≠ A.cols ∨ A.rows ≠ b.size) := by tauto
    rw [solve_linear_system]
    simp only [if_neg h3]
  · intro h
    have h2 : A.rows ≠ A.cols ∨ A.rows ≠ b.size := by tauto
    rw [solve_linear_system]
    simp only [if_pos h2]
  · norm_num [solve_linear_system, Vec.size, exIsOk, mSing, vOnes]
  · norm_num [solAt, solve_linear_system, Vec.size, Vec.atV, Mat.reduced_row_echelon_form,
      rrefLoop, findPivot, findRow, pivotStep, eliminate, divideRow, swapRows, augmentedOf,
      mSing, vOnes]
  · norm_num [solAt, solve_linear_system, Vec.size, Vec.atV, Mat.reduced_row_echelon_form,
      rrefLoop, findPivot, findRow, pivotStep, eliminate, divideRow, swapRows, augmentedOf,
      mSing, vOnes]

/-- C4 witness: a square well-matched system succeeds, a non-square one
fails with the dimension error. -/
theorem claim4_solve_shape_witness :
    exIsOk (solve_linear_system mSolveA vOnes) = true ∧
    solve_linear_system mRect vOnes =
      .error (Err.invalid_argument ("Invalid dimensions for linear system")) := by
  constructor
  · exact (claim4_solve_shape mSolveA vOnes (by constructor <;> decide)
      (by constructor <;> decide)).1.mpr ⟨rfl, rfl⟩
  · exact (claim4_solve_shape mRect vOnes (by constructor <;> decide)
      (by constructor <;> decide)).2.2.2.2.2.1 (by decide)

end SolveShapeClaim

section SearchLemmas

variable {α : Type} [Field α] [DecidableEq α]

theorem findRow_sound (t : Mat α) (lead : ℕ) :
    ∀ fuel i i2, findRow t lead i fuel = some i2 →
      i ≤ i2 ∧ i2 < i + fuel ∧ t.entry i2 lead ≠ 0 ∧
      ∀ i3, i ≤ i3 → i3 < i2 → t.entry i3 lead = 0 := by
  intro fuel
  induction fuel with
  | zero => intro i i2 h; simp [findRow] at h
  | succ fuel ih =>
    intro i i2 h
    simp only [findRow] at h
    by_cases hz : t.entry i lead ≠ 0
    · rw [if_pos hz] at h
      obtain rfl : i = i2 := by injection h
      exact ⟨le_rfl, by omega, hz, fun i3 h1 h2 => by omega⟩
    · rw [if_neg hz] at h
      obtain ⟨h1, h2, h3, h4⟩ := ih (i + 1) i2 h
      push_neg at hz
      refine ⟨by omega, by omega, h3, ?_⟩
      intro i3 hgi hlt
      by_cases hei : i3 = i
      · subst hei; exact hz
      · exact h4 i3 (by omega) hlt

theorem findRow_none (t : Mat α) (lead : ℕ) :
    ∀ fuel i, findRow t lead i fuel = none ↔
      ∀ i2, i ≤ i2 → i2 < i + fuel → t.entry i2 lead = 0 := by
  intro fuel
  induction fuel with
  | zero => intro i; simp [findRow]; omega
  | succ fuel ih =>
    intro i
    simp only [findRow]
    by_cases hz : t.entry i lead ≠ 0
    · rw [if_pos hz]
      constructor
      · intro h; exact absurd h (by simp)
      · intro h; exact absurd (h i le_rfl (by omega)) hz
    · rw [if_neg hz]
      push_neg at hz
      rw [ih (i + 1)]
      constructor
      · intro h i2 h1 h2
        by_cases hei : i2 = i
        · subst hei; exact hz
        · exact h i2 (by omega) (by omega)
      · intro h i2 h1 h2
        exact h i2 (by omega) (by omega)

theorem findPivot_sound (t : Mat α) (r : ℕ) :
    ∀ fuel lead i l, findPivot t r lead fuel = some (i, l) →
      lead ≤ l ∧ l < lead + fuel ∧ r ≤ i ∧ i < t.rows ∧ t.entry i l ≠ 0 ∧
      (∀ i3, r ≤ i3 → i3 < i → t.entry i3 l = 0) ∧
      (∀ l2, lead ≤ l2 → l2 < l → ∀ i3, r ≤ i3 → i3 < t.rows → t.entry i3 l2 = 0) := by
  intro fuel
  induction fuel with
  | zero => intro lead i l h; simp [findPivot] at h
  | succ fuel ih =>
    intro lead i l h
    simp only [findPivot] at h
    cases hfr : findRow t lead r (t.rows - r) with
    | some i4 =>
      rw [hfr] at h
      have hpair : (i4, lead) = (i, l) := by injection h
      have hi4 : i4 = i := congrArg Prod.fst hpair
      have hlead : lead = l := congrArg Prod.snd hpair
      subst hi4
      subst hlead
      obtain ⟨ha, hb, hc, hd⟩ := findRow_sound t lead (t.rows - r) r i4 hfr
      have hrr : r < t.rows := by
        by_contra hcon
        have h0 : t.rows - r = 0 := by omega
        rw [h0] at hfr
        simp [findRow] at hfr
      refine ⟨le_rfl, by omega, ha, by omega, hc, hd, ?_⟩
      intro l2 h1 h2
      omega
    | none =>
      rw [hfr] at h
      obtain ⟨h1, h2, h3, h4, h5, h6, h7⟩ := ih (lead + 1) i l h
      refine ⟨by omega, by omega, h3, h4, h5, h6, ?_⟩
      intro l2 hg hl i3 hi3 hi3r
      by_cases hel : l2 = lead
      · subst hel
        exact (findRow_none t l2 (t.rows - r) r).mp hfr i3 hi3 (by omega)
      · exact h7 l2 (by omega) hl i3 hi3 hi3r

theorem findPivot_none_sound (t : Mat α) (r : ℕ) :
    ∀ fuel lead, findPivot t r lead fuel = none →
      ∀ l2, lead ≤ l2 → l2 < lead + fuel → ∀ i3, r ≤ i3 → i3 < t.rows → t.entry i3 l2 = 0 := by
  intro fuel
  induction fuel with
  | zero => intro lead h l2 h1 h2; omega
  | succ fuel ih =>
    intro lead h l2 h1 h2 i3 hi3 hi3r
    simp only [findPivot] at h
    cases hfr : findRow t lead r (t.rows - r) with
    | some i4 => rw [hfr] at h; simp at h
    | none =>
      rw [hfr] at h
      by_cases hel : l2 = lead
      · subst hel
        exact (findRow_none t l2 (t.rows - r) r).mp hfr i3 hi3 (by omega)
      · exact ih (lead + 1) h l2 (by omega) (by omega) i3 hi3 hi3r

theorem findRow_some_of (t : Mat α) (lead : ℕ) :
    ∀ fuel i w, i ≤ w → w < i + fuel → t.entry w lead ≠ 0 →
      ∃ i2, findRow t lead i fuel = some i2 := by
  intro fuel
  induction fuel with
  | zero => intro i w h1 h2 h3; omega
  | succ fuel ih =>
    intro i w h1 h2 h3
    simp only [findRow]
    by_cases hz : t.entry i lead ≠ 0
    · exact ⟨i, if_pos hz⟩
    · rw [if_neg hz]
      push_neg at hz
      have hwne : w ≠ i := fun he => h3 (he ▸ hz)
      exact ih (i + 1) w (by omega) (by omega) h3

theorem findPivot_some_self (t : Mat α) (r : ℕ) (hrr : r < t.rows) :
    ∀ fuel lead L, lead ≤ L → L < lead + fuel → t.entry r L ≠ 0 →
      (∀ l2, lead ≤ l2 → l2 < L → ∀ i3, r ≤ i3 → i3 < t.rows → t.entry i3 l2 = 0) →
      findPivot t r lead fuel = some (r, L) := by
  intro fuel
  induction fuel with
  | zero => intro lead L h1 h2; omega
  | succ fuel ih =>
    intro lead L h1 h2 hnz hcols
    simp only [findPivot]
    by_cases heL : lead = L
    · subst heL
      have hfr : findRow t lead r (t.rows - r) = some r := by
        have hsz : t.rows - r = (t.rows - r - 1) + 1 := by omega
        rw [hsz]
        simp only [findRow, if_pos hnz]
      rw [hfr]
    · have hfr : findRow t lead r (t.rows - r) = none := by
        rw [findRow_none]
        intro i2 hg hl
        exact hcols lead le_rfl (by omega) i2 hg (by omega)
      rw [hfr]
      exact ih (lead + 1) L (by omega) (by omega) hnz
        (fun l2 hg hl => hcols l2 (by omega) hl)

theorem findPivot_first_col (t : Mat α) (r : ℕ) (hrr : r < t.rows) (fuel lead : ℕ)
    (w : ℕ) (hw : r ≤ w) (hw2 : w < t.rows) (hnz : t.entry w lead ≠ 0) (hf : 0 < fuel) :
    ∃ i, findPivot t r lead fuel = some (i, lead) := by
  obtain ⟨fuel2, rfl⟩ : ∃ fuel2, fuel = fuel2 + 1 := ⟨fuel - 1, by omega⟩
  obtain ⟨i2, hi2⟩ := findRow_some_of t lead (t.rows - r) r w hw (by omega) hnz
  refine ⟨i2, ?_⟩
  simp only [findPivot]
  rw [hi2]

theorem rrefLoopP_fst : ∀ (fuel : ℕ) (t : Mat α) (r lead : ℕ),
    (rrefLoopP t r lead fuel).1 = rrefLoop t r lead fuel := by
  intro fuel
  induction fuel with
  | zero => intro t r lead; rfl
  | succ fuel ih =>
    intro t r lead
    simp only [rrefLoopP, rrefLoop]
    cases hfp : findPivot t r lead (t.cols - lead) with
    | none => rfl
    | some pr =>
      obtain ⟨i, l⟩ := pr
      simp only [ih]

end SearchLemmas

section OpLemmas

variable {α : Type} [Field α]

theorem swapRows_entry_notcol (t : Mat α) (i r a b : ℕ) (hb : ¬ b < t.cols) :
    (swapRows t i r).entry a b = t.entry a b := by
  simp [swapRows, hb]

theorem divideRow_entry_notcol (t : Mat α) (r : ℕ) (d : α) (a b : ℕ) (hb : ¬ b < t.cols) :
    (divideRow t r d).entry a b = t.entry a b := by
  simp [divideRow, hb]

theorem eliminate_entry_notrow (t : Mat α) (r l a b : ℕ) (ha : ¬ a < t.rows) :
    (eliminate t r l).entry a b = t.entry a b := by
  simp [eliminate, ha]

theorem eliminate_entry_notcol (t : Mat α) (r l a b : ℕ) (hb : ¬ b < t.cols) :
    (eliminate t r l).entry a b = t.entry a b := by
  simp [eliminate, hb]

theorem swapRows_entry_rr (t : Mat α) (i r b : ℕ) (hb : b < t.cols) :
    (swapRows t i r).entry r b = t.entry i b := by
  by_cases h : r = i <;> simp [swapRows, hb, h]

theorem swap_keep_delta (t : Mat α) (i0 r p c : ℕ) (hi0 : i0 < t.rows) (hr : r < t.rows)
    (hip : i0 ≠ p) (hrp : r ≠ p) (hc : c < t.cols) (hD : DeltaCol t p c) :
    DeltaCol (swapRows t i0 r) p c := by
  obtain ⟨h1, h0⟩ := hD
  constructor
  · rw [swapRows_entry t i0 r p c hc]
    rw [if_neg (fun he => hip he.symm), if_neg (fun he => hrp he.symm)]
    exact h1
  · intro i hi hne
    rw [swapRows_entry t i0 r i c hc]
    by_cases he1 : i = i0
    · rw [if_pos he1]; exact h0 r hr hrp
    · rw [if_neg he1]
      by_cases he2 : i = r
      · rw [if_pos he2]; exact h0 i0 hi0 hip
      · rw [if_neg he2]; exact h0 i hi hne

theorem divide_keep_delta (t : Mat α) (r p c : ℕ) (d : α) (hrp : r ≠ p) (hc : c < t.cols)
    (hr : r < t.rows) (hD : DeltaCol t p c) : DeltaCol (divideRow t r d) p c := by
  obtain ⟨h1, h0⟩ := hD
  constructor
  · rw [divideRow_entry_ne t r d p c (fun he => hrp he.symm)]
    exact h1
  · intro i hi hne
    by_cases he : i = r
    · subst he
      rw [divideRow_entry_eq t i d c hc, h0 i hi hne, zero_div]
    · rw [divideRow_entry_ne t r d i c he]
      exact h0 i hi hne

theorem elim_keep_delta (t : Mat α) (r l p c : ℕ) (hrp : r ≠ p) (hc : c < t.cols)
    (hr : r < t.rows) (hD : DeltaCol t p c) : DeltaCol (eliminate t r l) p c := by
  obtain ⟨h1, h0⟩ := hD
  constructor
  · by_cases hp2 : p < t.rows
    · rw [eliminate_entry_in t r l p c hp2 (fun he => hrp he.symm) hc]
      rw [h0 r hr hrp, zero_mul, sub_zero]
      exact h1
    · rw [eliminate_entry_notrow t r l p c hp2]
      exact h1
  · intro i hi hne
    by_cases he : i = r
    · subst he
      rw [eliminate_entry_r]
      exact h0 i hi hne
    · rw [eliminate_entry_in t r l i c hi he hc]
      rw [h0 r hr hrp, zero_mul, sub_zero]
      exact h0 i hi hne

theorem pivotStep_keep_delta (t : Mat α) (i0 r l p c : ℕ) (hi0 : i0 < t.rows) (hri : r ≤ i0)
    (hr : r < t.rows) (hp : p < r) (hc : c < t.cols) (hD : DeltaCol t p c) :
    DeltaCol (pivotStep t i0 r l) p c := by
  unfold pivotStep
  exact elim_keep_delta _ _ _ _ _ (by omega) hc (by simpa using hr)
    (divide_keep_delta _ _ _ _ _ (by omega) (by simpa using hc) (by simpa using hr)
      (swap_keep_delta t i0 r p c hi0 hr (by omega) (by omega) hc hD))

theorem pivotStep_new_delta (t : Mat α) (i0 r l : ℕ) (hi0 : i0 < t.rows) (hri : r ≤ i0)
    (hl : l < t.cols) (hnz : t.entry i0 l ≠ 0) :
    DeltaCol (pivotStep t i0 r l) r l := by
  unfold pivotStep
  have hd : (swapRows t i0 r).entry r l = t.entry i0 l := swapRows_entry_rr t i0 r l hl
  have h2 : (divideRow (swapRows t i0 r) r ((swapRows t i0 r).entry r l)).entry r l = 1 := by
    rw [divideRow_entry_eq _ _ _ _ (by simpa using hl), hd]
    exact div_self hnz
  constructor
  · rw [eliminate_entry_r]
    exact h2
  · intro i hi hne
    rw [eliminate_entry_in _ _ _ _ _ (by simpa using hi) hne (by simpa using hl)]
    rw [h2, one_mul, sub_self]

theorem swap_keep_zb (t : Mat α) (i0 r k j : ℕ) (hk : k ≤ r) (hri : r ≤ i0)
    (hi0 : i0 < t.rows) (hZ : ZeroBelow t k j) : ZeroBelow (swapRows t i0 r) k j := by
  intro i hki hi
  by_cases hj : j < t.cols
  · rw [swapRows_entry t i0 r i j hj]
    by_cases he1 : i = i0
    · rw [if_pos he1]; exact hZ r hk (by omega)
    · rw [if_neg he1]
      by_cases he2 : i = r
      · rw [if_pos he2]; exact hZ i0 (by omega) hi0
      · rw [if_neg he2]; exact hZ i hki hi
  · rw [swapRows_entry_notcol t i0 r i j hj]
    exact hZ i hki hi

theorem divide_keep_zb (t : Mat α) (r k j : ℕ) (d : α) (hk : k ≤ r) (hZ : ZeroBelow t k j) :
    ZeroBelow (divideRow t r d) k j := by
  intro i hki hi
  by_cases he : i = r
  · subst he
    by_cases hj : j < t.cols
    · rw [divideRow_entry_eq t i d j hj, hZ i hki hi, zero_div]
    · rw [divideRow_entry_notcol t i d i j hj]
      exact hZ i hki hi
  · rw [divideRow_entry_ne t r d i j he]
    exact hZ i hki hi

theorem elim_keep_zb (t : Mat α) (r l k j : ℕ) (hk : k ≤ r) (hr : r < t.rows)
    (hZ : ZeroBelow t k j) : ZeroBelow (eliminate t r l) k j := by
  intro i hki hi
  by_cases he : i = r
  · subst he
    rw [eliminate_entry_r]
    exact hZ i hki hi
  · by_cases hj : j < t.cols
    · rw [eliminate_entry_in t r l i j hi he hj]
      rw [hZ r hk hr, zero_mul, sub_zero]
      exact hZ i hki hi
    · rw [eliminate_entry_notcol t r l i j hj]
      exact hZ i hki hi

theorem pivotStep_keep_zb (t : Mat α) (i0 r l k j : ℕ) (hk : k ≤ r) (hri : r ≤ i0)
    (hi0 : i0 < t.rows) (hr : r < t.rows) (hZ : ZeroBelow t k j) :
    ZeroBelow (pivotStep t i0 r l) k j := by
  unfold pivotStep
  exact elim_keep_zb _ _ _ _ _ hk (by simpa using hr)
    (divide_keep_zb _ _ _ _ _ hk (swap_keep_zb t i0 r k j hk hri hi0 hZ))

end OpLemmas

section MainInvariant

variable {α : Type} [Field α] [DecidableEq α]

theorem rrefLoopP_spec : ∀ (fuel : ℕ) (t : Mat α) (r lead : ℕ),
    r + fuel = t.rows → lead ≤ t.cols →
    (∀ j, j < lead → ZeroBelow t r j) →
    ((rrefLoopP t r lead fuel).1.rows = t.rows ∧ (rrefLoopP t r lead fuel).1.cols = t.cols) ∧
    IncreasingFrom lead (rrefLoopP t r lead fuel).2 ∧
    (∀ l0 ∈ (rrefLoopP t r lead fuel).2, l0 < t.cols) ∧
    (rrefLoopP t r lead fuel).2.length ≤ fuel ∧
    PivCols (rrefLoopP t r lead fuel).1 r (rrefLoopP t r lead fuel).2 ∧
    LeftZ (rrefLoopP t r lead fuel).1 r (rrefLoopP t r lead fuel).2 ∧
    (∀ i, r + (rrefLoopP t r lead fuel).2.length ≤ i → i < t.rows → ∀ j, j < t.cols →
        (rrefLoopP t r lead fuel).1.entry i j = 0) ∧
    (∀ c, c < t.cols → ∀ p, p < r → DeltaCol t p c → DeltaCol (rrefLoopP t r lead fuel).1 p c) ∧
    (∀ j k, k ≤ r → ZeroBelow t k j → ZeroBelow (rrefLoopP t r lead fuel).1 k j) := by
  intro fuel
  induction fuel with
  | zero =>
    intro t r lead hfuel hlead hiv
    refine ⟨⟨rfl, rfl⟩, trivial, ?_, ?_, trivial, trivial, ?_, ?_, ?_⟩
    · intro l0 h; simp [rrefLoopP] at h
    · simp [rrefLoopP]
    · intro i h1 h2 j hj
      simp only [rrefLoopP, List.length_nil] at h1
      omega
    · intro c hc p hp hD; exact hD
    · intro j k hk hZ; exact hZ
  | succ fuel ih =>
    intro t r lead hfuel hlead hiv
    cases hfp : findPivot t r lead (t.cols - lead) with
    | none =>
      have hall : ∀ i, r ≤ i → i < t.rows → ∀ j, j < t.cols → t.entry i j = 0 := by
        intro i h1 h2 j hj
        by_cases hjl : j < lead
        · exact hiv j hjl i h1 h2
        · exact findPivot_none_sound t r (t.cols - lead) lead hfp j (by omega) (by omega) i h1 h2
      have hres : rrefLoopP t r lead (fuel + 1) = (t, ([] : List ℕ)) := by
        simp only [rrefLoopP, hfp]
      rw [hres]
      refine ⟨⟨rfl, rfl⟩, trivial, ?_, ?_, trivial, trivial, ?_, ?_, ?_⟩
      · intro l0 h; simp at h
      · simp
      · intro i h1 h2 j hj
        simp only [List.length_nil] at h1
        exact hall i (by omega) h2 j hj
      · intro c hc p hp hD; exact hD
      · intro j k hk hZ; exact hZ
    | some pr =>
      obtain ⟨i0, l⟩ := pr
      obtain ⟨hl1, hl2, hi1, hi2, hnz, hrowz, hcolz⟩ :=
        findPivot_sound t r (t.cols - lead) lead i0 l hfp
      have hlc : l < t.cols := by omega
      have hrr : r < t.rows := by omega
      have hDnew : DeltaCol (pivotStep t i0 r l) r l :=
        pivotStep_new_delta t i0 r l hi2 hi1 hlc hnz
      have hzb_r : ∀ j, j < l → ZeroBelow (pivotStep t i0 r l) r j := by
        intro j hj
        have hz : ZeroBelow t r j := by
          by_cases hjlead : j < lead
          · exact hiv j hjlead
          · intro i2 h1 h2
            exact hcolz j (by omega) (by omega) i2 h1 h2
        exact pivotStep_keep_zb t i0 r l r j le_rfl hi1 hi2 hrr hz
      have hzb_new : ∀ j, j < l + 1 → ZeroBelow (pivotStep t i0 r l) (r + 1) j := by
        intro j hj i hki hi
        by_cases hjl : j = l
        · subst hjl
          exact hDnew.2 i hi (by omega)
        · exact hzb_r j (by omega) i (by omega) hi
      obtain ⟨⟨hRrows, hRcols⟩, hInc, hBound, hLen, hPiv, hLZ, hBot, hKeepD, hKeepZ⟩ :=
        ih (pivotStep t i0 r l) (r + 1) (l + 1)
          (by simp only [pivotStep_rows]; omega)
          (by simp only [pivotStep_cols]; omega) hzb_new
      have hres : rrefLoopP t r lead (fuel + 1) =
          ((rrefLoopP (pivotStep t i0 r l) (r + 1) (l + 1) fuel).1,
           l :: (rrefLoopP (pivotStep t i0 r l) (r + 1) (l + 1) fuel).2) := by
        simp only [rrefLoopP, hfp]
      rw [hres]
      refine ⟨⟨hRrows, hRcols⟩, ⟨hl1, hInc⟩, ?_, ?_, ⟨?_, hPiv⟩, ⟨?_, hLZ⟩, ?_, ?_, ?_⟩
      · intro l0 h
        rcases List.mem_cons.mp h with h | h
        · subst h; exact hlc
        · exact hBound l0 h
      · simp only [List.length_cons]
        omega
      · exact hKeepD l hlc r (by omega) hDnew
      · intro j hj
        exact hKeepZ j r (by omega) (hzb_r j hj)
      · intro i h1 h2 j hj
        simp only [List.length_cons] at h1
        exact hBot i (by omega) h2 j hj
      · intro c hc p hp hD
        exact hKeepD c hc p (by omega)
          (pivotStep_keep_delta t i0 r l p c hi2 hi1 hrr hp hc hD)
      · intro j k hk hZ
        exact hKeepZ j k (by omega) (pivotStep_keep_zb t i0 r l k j hk hi1 hi2 hrr hZ)

/-- C1: reduced_row_echelon_form is the pure lead-cursor algorithm run on
a copy of the receiver (the receiver, passed by const reference, is a
value here, so it is unchanged by construction): the instrumented loop
returns the same matrix together with the strictly increasing list of
pivot columns, one per consecutive row from the top; every pivot column of
the result holds 1 in its pivot row and 0 in every other row (the reduced
row-echelon property), every pivot row is zero strictly left of its pivot,
rows below the last pivot are entirely zero, and the pivot search embedded
in findPivot picks exactly the first row with an entry unequal to zero in
the current column, advancing the lead cursor and restarting at row r when
a column is exhausted and giving up (early return) when lead reaches
cols. -/
theorem claim1_rref_lead_cursor (M : Mat α) :
    (M.reduced_row_echelon_form = rrefLoop M 0 0 M.rows ∧
     M.reduced_row_echelon_form.rows = M.rows ∧
     M.reduced_row_echelon_form.cols = M.cols ∧
     (rrefLoopP M 0 0 M.rows).1 = M.reduced_row_echelon_form) ∧
    (IncreasingFrom 0 (rrefLoopP M 0 0 M.rows).2 ∧
     (∀ l0 ∈ (rrefLoopP M 0 0 M.rows).2, l0 < M.cols) ∧
     (rrefLoopP M 0 0 M.rows).2.length ≤ M.rows) ∧
    PivCols M.reduced_row_echelon_form 0 (rrefLoopP M 0 0 M.rows).2 ∧
    LeftZ M.reduced_row_echelon_form 0 (rrefLoopP M 0 0 M.rows).2 ∧
    (∀ i, (rrefLoopP M 0 0 M.rows).2.length ≤ i → i < M.rows → ∀ j, j < M.cols →
      M.reduced_row_echelon_form.entry i j = 0) ∧
    (∀ (t : Mat α) (r lead fuel i l : ℕ), findPivot t r lead fuel = some (i, l) →
      t.entry i l ≠ 0 ∧ r ≤ i ∧ i < t.rows ∧ lead ≤ l ∧ l < lead + fuel ∧
      (∀ i3, r ≤ i3 → i3 < i → t.entry i3 l = 0) ∧
      (∀ l2, lead ≤ l2 → l2 < l → ∀ i3, r ≤ i3 → i3 < t.rows → t.entry i3 l2 = 0)) := by
  have hfst : (rrefLoopP M 0 0 M.rows).1 = M.reduced_row_echelon_form :=
    rrefLoopP_fst M.rows M 0 0
  obtain ⟨⟨hRrows, hRcols⟩, hInc, hBound, hLen, hPiv, hLZ, hBot, _, _⟩ :=
    rrefLoopP_spec M.rows M 0 0 (by omega) (by omega) (by intro j hj; omega)
  rw [hfst] at hRrows hRcols hPiv hLZ hBot
  refine ⟨⟨rfl, hRrows, hRcols, hfst⟩, ⟨hInc, hBound, hLen⟩, hPiv, hLZ, ?_, ?_⟩
  · intro i h1 h2 j hj
    exact hBot i (by omega) h2 j hj
  · intro t r lead fuel i l h
    obtain ⟨a1, a2, a3, a4, a5, a6, a7⟩ := findPivot_sound t r fuel lead i l h
    exact ⟨a5, a3, a4, a1, a2, a6, a7⟩

/-- C1 witness: the first-nonzero pivot-search characterization applied to
the concrete matrix [[0,3],[2,4]], whose first column forces the search to
skip row 0 and pick row 1, together with the pivot-column structure of its
reduction. -/
theorem claim1_rref_lead_cursor_witness :
    (mPivotDemo.entry 1 0 ≠ 0 ∧ 0 ≤ 1 ∧ 1 < mPivotDemo.rows ∧ 0 ≤ 0 ∧ 0 < 0 + 2 ∧
      (∀ i3, 0 ≤ i3 → i3 < 1 → mPivotDemo.entry i3 0 = 0) ∧
      (∀ l2, 0 ≤ l2 → l2 < 0 → ∀ i3, 0 ≤ i3 → i3 < mPivotDemo.rows →
        mPivotDemo.entry i3 l2 = 0)) ∧
    PivCols mPivotDemo.reduced_row_echelon_form 0 (rrefLoopP mPivotDemo 0 0 mPivotDemo.rows).2 := by
  exact ⟨(claim1_rref_lead_cursor mPivotDemo).2.2.2.2.2 mPivotDemo 0 0 2 1 0 (by decide),
    (claim1_rref_lead_cursor mPivotDemo).2.2.1⟩

end MainInvariant

section Idempotence

variable {α : Type} [Field α] [DecidableEq α]

theorem swapRows_self (t : Mat α) (r : ℕ) : swapRows t r r = t := by
  refine Mat.ext_rce rfl rfl ?_
  funext a b
  by_cases hb : b < t.cols
  · by_cases ha : a = r <;> simp [swapRows, hb, ha]
  · simp [swapRows, hb]

theorem divideRow_one (t : Mat α) (r : ℕ) : divideRow t r 1 = t := by
  refine Mat.ext_rce rfl rfl ?_
  funext a b
  by_cases h : a = r ∧ b < t.cols <;> simp [divideRow, h]

theorem eliminate_zero_col (t : Mat α) (r l : ℕ)
    (hz : ∀ a, a < t.rows → a ≠ r → t.entry a l = 0) : eliminate t r l = t := by
  refine Mat.ext_rce rfl rfl ?_
  funext a b
  by_cases h1 : a < t.rows ∧ a ≠ r ∧ b < t.cols
  · rw [eliminate_entry_in t r l a b h1.1 h1.2.1 h1.2.2, hz a h1.1 h1.2.1, mul_zero, sub_zero]
  · simp [eliminate, h1]

theorem pivotStep_id (t : Mat α) (r l : ℕ) (hl : l < t.cols) (hD : DeltaCol t r l) :
    pivotStep t r r l = t := by
  have h0 : pivotStep t r r l =
      eliminate (divideRow (swapRows t r r) r ((swapRows t r r).entry r l)) r l := rfl
  rw [h0, swapRows_self, hD.1, divideRow_one]
  exact eliminate_zero_col t r l (fun a ha hne => hD.2 a ha hne)

theorem rrefLoop_fix : ∀ (P : List ℕ) (t : Mat α) (r lead fuel : ℕ),
    r + fuel = t.rows → P.length ≤ fuel →
    IncreasingFrom lead P → (∀ l0 ∈ P, l0 < t.cols) →
    PivCols t r P → LeftZ t r P →
    (∀ i, r + P.length ≤ i → i < t.rows → ∀ j, j < t.cols → t.entry i j = 0) →
    rrefLoop t r lead fuel = t := by
  intro P
  induction P with
  | nil =>
    intro t r lead fuel hfuel hlen hinc hbound hpiv hlz hbot
    cases fuel with
    | zero => rfl
    | succ fuel =>
      cases hfp : findPivot t r lead (t.cols - lead) with
      | none => simp only [rrefLoop, hfp]
      | some pr =>
        obtain ⟨i0, l⟩ := pr
        obtain ⟨hl1, hl2, hi1, hi2, hnz, _, _⟩ := findPivot_sound t r _ lead i0 l hfp
        exact absurd (hbot i0 (by simp only [List.length_nil]; omega) hi2 l (by omega)) hnz
  | cons l P ih =>
    intro t r lead fuel hfuel hlen hinc hbound hpiv hlz hbot
    cases fuel with
    | zero => simp at hlen
    | succ fuel =>
      obtain ⟨hD, hpiv2⟩ := hpiv
      obtain ⟨hlz1, hlz2⟩ := hlz
      obtain ⟨hinc1, hinc2⟩ := hinc
      have hlc : l < t.cols := hbound l (List.mem_cons_self l P)
      have hrr : r < t.rows := by omega
      have hnz : t.entry r l ≠ 0 := by rw [hD.1]; exact one_ne_zero
      have hfp : findPivot t r lead (t.cols - lead) = some (r, l) := by
        apply findPivot_some_self t r hrr (t.cols - lead) lead l hinc1 (by omega) hnz
        intro l2 hg hl2 i3 hi3 hi3r
        exact hlz1 l2 hl2 i3 hi3 hi3r
      simp only [rrefLoop, hfp]
      rw [pivotStep_id t r l hlc hD]
      refine ih t (r + 1) (l + 1) fuel (by omega) ?_ hinc2
        (fun l0 h => hbound l0 (List.mem_cons_of_mem l h)) hpiv2 hlz2 ?_
      · simp only [List.length_cons] at hlen
        omega
      · intro i h1 h2 j hj
        exact hbot i (by simp only [List.length_cons]; omega) h2 j hj

/-- C5: reduced_row_echelon_form is idempotent over an exact field:
reducing the reduction changes nothing, so every output of the reduction
is a fixed point of the operation.  The second run rediscovers exactly the
pivot columns left by the first run (each already a unit column with its
pivot equal to 1) and each of its row operations is the identity. -/
theorem claim5_rref_idempotent (M : Mat α) :
    M.reduced_row_echelon_form.reduced_row_echelon_form = M.reduced_row_echelon_form := by
  have hfst : (rrefLoopP M 0 0 M.rows).1 = M.reduced_row_echelon_form :=
    rrefLoopP_fst M.rows M 0 0
  obtain ⟨⟨hRrows, hRcols⟩, hInc, hBound, hLen, hPiv, hLZ, hBot, _, _⟩ :=
    rrefLoopP_spec M.rows M 0 0 (by omega) (by omega) (by intro j hj; omega)
  rw [hfst] at hRrows hRcols hPiv hLZ hBot
  have h2 : M.reduced_row_echelon_form.reduced_row_echelon_form
      = rrefLoop M.reduced_row_echelon_form 0 0 M.reduced_row_echelon_form.rows := rfl
  rw [h2, hRrows]
  refine rrefLoop_fix (rrefLoopP M 0 0 M.rows).2 M.reduced_row_echelon_form 0 0 M.rows
    (by omega) (by omega) hInc (fun l0 h => by have := hBound l0 h; omega) hPiv hLZ ?_
  intro i h1 h2b j hj
  exact hBot i (by omega) (by omega) j (by omega)

end Idempotence

section RowSums

variable {α : Type} [Field α]

theorem sum_swapRows (t : Mat α) (i0 r a n : ℕ) (hn : n ≤ t.cols) (v : ℕ → α) :
    (∑ j ∈ Finset.range n, (swapRows t i0 r).entry a j * v j) =
      if a = i0 then (∑ j ∈ Finset.range n, t.entry r j * v j)
      else if a = r then (∑ j ∈ Finset.range n, t.entry i0 j * v j)
      else (∑ j ∈ Finset.range n, t.entry a j * v j) := by
  by_cases h1 : a = i0
  · rw [if_pos h1]
    refine Finset.sum_congr rfl ?_
    intro j hj
    rw [swapRows_entry t i0 r a j (lt_of_lt_of_le (Finset.mem_range.mp hj) hn), if_pos h1]
  · rw [if_neg h1]
    by_cases h2 : a = r
    · rw [if_pos h2]
      refine Finset.sum_congr rfl ?_
      intro j hj
      rw [swapRows_entry t i0 r a j (lt_of_lt_of_le (Finset.mem_range.mp hj) hn),
        if_neg h1, if_pos h2]
    · rw [if_neg h2]
      refine Finset.sum_congr rfl ?_
      intro j hj
      rw [swapRows_entry t i0 r a j (lt_of_lt_of_le (Finset.mem_range.mp hj) hn),
        if_neg h1, if_neg h2]

theorem sum_divideRow (t : Mat α) (r a n : ℕ) (hn : n ≤ t.cols) (d : α) (v : ℕ → α) :
    (∑ j ∈ Finset.range n, (divideRow t r d).entry a j * v j) =
      if a = r then (∑ j ∈ Finset.range n, t.entry a j * v j) / d
      else (∑ j ∈ Finset.range n, t.entry a j * v j) := by
  by_cases h : a = r
  · rw [if_pos h, Finset.sum_div]
    refine Finset.sum_congr rfl ?_
    intro j hj
    rw [h, divideRow_entry_eq t r d j (lt_of_lt_of_le (Finset.mem_range.mp hj) hn)]
    rw [div_mul_eq_mul_div]
  · rw [if_neg h]
    exact Finset.sum_congr rfl fun j hj => by rw [divideRow_entry_ne t r d a j h]

theorem sum_eliminate (t : Mat α) (r l a n : ℕ) (hn : n ≤ t.cols) (ha : a < t.rows)
    (hne : a ≠ r) (v : ℕ → α) :
    (∑ j ∈ Finset.range n, (eliminate t r l).entry a j * v j) =
      (∑ j ∈ Finset.range n, t.entry a j * v j) -
        t.entry a l * (∑ j ∈ Finset.range n, t.entry r j * v j) := by
  rw [Finset.mul_sum, ← Finset.sum_sub_distrib]
  refine Finset.sum_congr rfl ?_
  intro j hj
  rw [eliminate_entry_in t r l a j ha hne (lt_of_lt_of_le (Finset.mem_range.mp hj) hn)]
  ring

theorem sum_eliminate_r (t : Mat α) (r l n : ℕ) (v : ℕ → α) :
    (∑ j ∈ Finset.range n, (eliminate t r l).entry r j * v j) =
      ∑ j ∈ Finset.range n, t.entry r j * v j :=
  Finset.sum_congr rfl fun j _ => by rw [eliminate_entry_r]

end RowSums

section KernelPreservation

variable {α : Type} [Field α]

theorem pivotStep_trivKer (t : Mat α) (i0 r l : ℕ) (hnc : t.rows ≤ t.cols)
    (hi0 : i0 < t.rows) (hr : r < t.rows) (hl : l < t.cols) (hnz : t.entry i0 l ≠ 0)
    (hK : TrivKerL t t.rows) : TrivKerL (pivotStep t i0 r l) t.rows := by
  intro v hv j hj
  have hd : (swapRows t i0 r).entry r l = t.entry i0 l := swapRows_entry_rr t i0 r l hl
  have hp : pivotStep t i0 r l =
      eliminate (divideRow (swapRows t i0 r) r ((swapRows t i0 r).entry r l)) r l := rfl
  rw [hp] at hv
  have hrsum : (∑ jj ∈ Finset.range t.rows,
      (divideRow (swapRows t i0 r) r ((swapRows t i0 r).entry r l)).entry r jj * v jj) = 0 := by
    have h0 := hv r hr
    rw [sum_eliminate_r] at h0
    exact h0
  have h2 : ∀ a, a < t.rows → (∑ jj ∈ Finset.range t.rows,
      (divideRow (swapRows t i0 r) r ((swapRows t i0 r).entry r l)).entry a jj * v jj) = 0 := by
    intro a ha
    by_cases he : a = r
    · rw [he]; exact hrsum
    · have h0 := hv a ha
      rw [sum_eliminate (divideRow (swapRows t i0 r) r ((swapRows t i0 r).entry r l)) r l a t.rows hnc ha he v] at h0
      rw [hrsum, mul_zero, sub_zero] at h0
      exact h0
  have h1 : ∀ a, a < t.rows → (∑ jj ∈ Finset.range t.rows,
      (swapRows t i0 r).entry a jj * v jj) = 0 := by
    intro a ha
    have h0 := h2 a ha
    rw [sum_divideRow (swapRows t i0 r) r a t.rows hnc ((swapRows t i0 r).entry r l) v] at h0
    by_cases he : a = r
    · rw [if_pos he] at h0
      rcases div_eq_zero_iff.mp h0 with h3 | h3
      · exact h3
      · rw [hd] at h3
        exact absurd h3 hnz
    · rw [if_neg he] at h0
      exact h0
  have h0 : ∀ k, k < t.rows → (∑ jj ∈ Finset.range t.rows, t.entry k jj * v jj) = 0 := by
    intro k hk
    by_cases hk1 : k = r
    · have h3 := h1 i0 hi0
      rw [sum_swapRows t i0 r i0 t.rows hnc v, if_pos rfl] at h3
      rw [hk1]
      exact h3
    · by_cases hk2 : k = i0
      · have h3 := h1 r hr
        rw [sum_swapRows t i0 r r t.rows hnc v] at h3
        by_cases hri : r = i0
        · exact absurd (hk2.trans hri.symm) hk1
        · rw [if_neg hri, if_pos rfl] at h3
          rw [hk2]
          exact h3
      · have h3 := h1 k hk
        rw [sum_swapRows t i0 r k t.rows hnc v, if_neg hk2, if_neg hk1] at h3
        exact h3
  exact hK v h0 j hj

theorem pivotStep_augOK (t : Mat α) (i0 r l : ℕ) (x : ℕ → α) (hnc : t.rows < t.cols)
    (hi0 : i0 < t.rows) (hr : r < t.rows) (hl : l < t.cols)
    (hA : AugOK t t.rows x) : AugOK (pivotStep t i0 r l) t.rows x := by
  have hle : t.rows ≤ t.cols := le_of_lt hnc
  have hA1 : AugOK (swapRows t i0 r) t.rows x := by
    intro a ha
    rw [sum_swapRows t i0 r a t.rows hle x]
    rw [swapRows_entry t i0 r a t.rows hnc]
    by_cases h1 : a = i0
    · rw [if_pos h1, if_pos h1]; exact hA r hr
    · rw [if_neg h1, if_neg h1]
      by_cases h2 : a = r
      · rw [if_pos h2, if_pos h2]; exact hA i0 hi0
      · rw [if_neg h2, if_neg h2]; exact hA a ha
  have hA2 : AugOK (divideRow (swapRows t i0 r) r ((swapRows t i0 r).entry r l)) t.rows x := by
    intro a ha
    rw [sum_divideRow (swapRows t i0 r) r a t.rows hle ((swapRows t i0 r).entry r l) x]
    by_cases h : a = r
    · rw [if_pos h, h, divideRow_entry_eq (swapRows t i0 r) r ((swapRows t i0 r).entry r l) t.rows hnc, hA1 r hr]
    · rw [if_neg h, divideRow_entry_ne (swapRows t i0 r) r ((swapRows t i0 r).entry r l) a t.rows h]
      exact hA1 a ha
  have hp : pivotStep t i0 r l =
      eliminate (divideRow (swapRows t i0 r) r ((swapRows t i0 r).entry r l)) r l := rfl
  intro a ha
  rw [hp]
  by_cases h : a = r
  · rw [h, sum_eliminate_r, eliminate_entry_r]
    exact hA2 r hr
  · rw [sum_eliminate (divideRow (swapRows t i0 r) r ((swapRows t i0 r).entry r l)) r l a t.rows hle ha h x]
    rw [eliminate_entry_in (divideRow (swapRows t i0 r) r ((swapRows t i0 r).entry r l)) r l a t.rows ha h hnc]
    rw [hA2 a ha, hA2 r hr]
    ring

end KernelPreservation

section RoundTrip

variable {α : Type} [Field α] [DecidableEq α]

theorem trivKer_of_hasInverse (A t : Mat α) (hsq : A.rows = A.cols)
    (hrows : t.rows = A.rows)
    (hagree : ∀ i, i < A.rows → ∀ j, j < A.rows → t.entry i j = A.entry i j)
    (hinv : A.HasInverse) : TrivKerL t t.rows := by
  obtain ⟨B, hBr, hBc, hBA, _⟩ := hinv
  intro v hv j hj
  rw [hrows] at hv hj
  have hv2 : ∀ i, i < A.rows → (∑ jj ∈ Finset.range A.rows, A.entry i jj * v jj) = 0 := by
    intro i hi
    calc (∑ jj ∈ Finset.range A.rows, A.entry i jj * v jj)
        = ∑ jj ∈ Finset.range A.rows, t.entry i jj * v jj :=
          Finset.sum_congr rfl (fun jj hjj => by
            rw [hagree i hi jj (Finset.mem_range.mp hjj)])
      _ = 0 := hv i hi
  have h1 : v j = ∑ k ∈ Finset.range A.rows, (matMulU B A).entry j k * v k := by
    rw [Finset.sum_congr rfl (fun k hk => by
      rw [hBA j hj k (Finset.mem_range.mp hk)])]
    simp only [ite_mul, one_mul, zero_mul]
    rw [Finset.sum_ite_eq (Finset.range A.rows) j v, if_pos (Finset.mem_range.mpr hj)]
  have h2 : ∀ k, k < A.rows → (matMulU B A).entry j k =
      ∑ m ∈ Finset.range A.rows, B.entry j m * A.entry m k := by
    intro k hk
    have hg : j < B.rows ∧ k < A.cols := ⟨by omega, by omega⟩
    show (if j < B.rows ∧ k < A.cols then mulEntryFold B A j k else 0) = _
    rw [if_pos hg, mulEntryFold, foldl_range_add, hBc]
  rw [h1, Finset.sum_congr rfl (fun k hk => by rw [h2 k (Finset.mem_range.mp hk)])]
  calc (∑ k ∈ Finset.range A.rows, (∑ m ∈ Finset.range A.rows, B.entry j m * A.entry m k) * v k)
      = ∑ k ∈ Finset.range A.rows, ∑ m ∈ Finset.range A.rows, B.entry j m * A.entry m k * v k := by
        refine Finset.sum_congr rfl ?_
        intro k hk
        rw [Finset.sum_mul]
    _ = ∑ m ∈ Finset.range A.rows, ∑ k ∈ Finset.range A.rows, B.entry j m * A.entry m k * v k :=
        Finset.sum_comm
    _ = ∑ m ∈ Finset.range A.rows, B.entry j m * ∑ k ∈ Finset.range A.rows, A.entry m k * v k := by
        refine Finset.sum_congr rfl ?_
        intro m hm
        rw [Finset.mul_sum]
        exact Finset.sum_congr rfl fun k hk => by ring
    _ = 0 := by
        refine Finset.sum_eq_zero ?_
        intro m hm
        rw [hv2 m (Finset.mem_range.mp hm), mul_zero]

theorem rrefLoop_solve : ∀ (fuel : ℕ) (t : Mat α) (r : ℕ) (x : ℕ → α),
    t.cols = t.rows + 1 → r + fuel = t.rows →
    (∀ j, j < r → DeltaCol t j j) →
    TrivKerL t t.rows → AugOK t t.rows x →
    (∀ j, j < t.rows → DeltaCol (rrefLoop t r r fuel) j j) ∧
    (∀ i, i < t.rows → (rrefLoop t r r fuel).entry i t.rows = x i) := by
  intro fuel
  induction fuel with
  | zero =>
    intro t r x hcols hfuel hid hK hA
    constructor
    · intro j hj
      exact hid j (by omega)
    · intro i hi
      have hsum : (∑ j ∈ Finset.range t.rows, t.entry i j * x j) = x i := by
        have hpt : ∀ j ∈ Finset.range t.rows, t.entry i j * x j = if i = j then x j else 0 := by
          intro j hj
          have hjr : j < t.rows := Finset.mem_range.mp hj
          by_cases he : i = j
          · rw [if_pos he, ← he, (hid i (by omega)).1, one_mul]
          · rw [if_neg he, (hid j (by omega)).2 i hi he, zero_mul]
        rw [Finset.sum_congr rfl hpt, Finset.sum_ite_eq (Finset.range t.rows) i x,
          if_pos (Finset.mem_range.mpr hi)]
      have h0 := hA i hi
      rw [hsum] at h0
      exact h0.symm
  | succ fuel ih =>
    intro t r x hcols hfuel hid hK hA
    have hr : r < t.rows := by omega
    have hex : ∃ w, r ≤ w ∧ w < t.rows ∧ t.entry w r ≠ 0 := by
      by_contra hcon
      push_neg at hcon
      set v : ℕ → α := fun j => if j = r then 1 else if j < r then -(t.entry j r) else 0 with hv
      have hvz : ∀ i, i < t.rows → (∑ j ∈ Finset.range t.rows, t.entry i j * v j) = 0 := by
        intro i hi
        have hsplit : ∀ j ∈ Finset.range t.rows, t.entry i j * v j =
            (if j = r then t.entry i r else 0) +
              (if j < r then -(t.entry i j * t.entry j r) else 0) := by
          intro j hj
          by_cases h1 : j = r
          · rw [h1]
            simp [hv]
          · by_cases h2 : j < r
            · simp only [hv, if_neg h1, if_pos h2]
              ring
            · simp only [hv, if_neg h1, if_neg h2]
              ring
        rw [Finset.sum_congr rfl hsplit, Finset.sum_add_distrib]
        have e1 : (∑ j ∈ Finset.range t.rows, if j = r then t.entry i r else 0)
            = t.entry i r := by
          rw [Finset.sum_ite_eq' (Finset.range t.rows) r (fun _ => t.entry i r),
            if_pos (Finset.mem_range.mpr hr)]
        have e2 : (∑ j ∈ Finset.range t.rows, if j < r then -(t.entry i j * t.entry j r) else 0)
            = ∑ j ∈ Finset.range r, -(t.entry i j * t.entry j r) := by
          rw [← Finset.sum_subset (Finset.range_subset.mpr (by omega : r ≤ t.rows))]
          · exact Finset.sum_congr rfl
              (fun j hj => by rw [if_pos (Finset.mem_range.mp hj)])
          · intro j hj hnj
            rw [if_neg (by simpa using hnj)]
        rw [e1, e2]
        by_cases hir : i < r
        · have e3 : (∑ j ∈ Finset.range r, -(t.entry i j * t.entry j r))
              = -(t.entry i r) := by
            rw [Finset.sum_eq_single i]
            · rw [(hid i hir).1, one_mul]
            · intro b hb hbne
              rw [(hid b (Finset.mem_range.mp hb)).2 i hi (fun he => hbne he.symm),
                zero_mul, neg_zero]
            · intro habs
              exact absurd (Finset.mem_range.mpr hir) habs
          rw [e3]
          ring
        · have e3 : (∑ j ∈ Finset.range r, -(t.entry i j * t.entry j r)) = 0 := by
            refine Finset.sum_eq_zero ?_
            intro j hj
            have hjr : j < r := Finset.mem_range.mp hj
            rw [(hid j hjr).2 i hi (by omega), zero_mul, neg_zero]
          rw [e3, hcon i (by omega) hi, add_zero]
      have hvr := hK v hvz r hr
      rw [hv] at hvr
      simp at hvr
    obtain ⟨w, hw1, hw2, hw3⟩ := hex
    obtain ⟨i0, hfp⟩ :=
      findPivot_first_col t r hr (t.cols - r) r w hw1 hw2 hw3 (by omega)
    obtain ⟨_, _, hi1, hi2, hnz, _, _⟩ := findPivot_sound t r _ r i0 r hfp
    have hrc : r < t.cols := by omega
    have hidNew : ∀ j, j < r + 1 → DeltaCol (pivotStep t i0 r r) j j := by
      intro j hj
      by_cases he : j = r
      · rw [he]
        exact pivotStep_new_delta t i0 r r hi2 hi1 hrc hnz
      · exact pivotStep_keep_delta t i0 r r j j hi2 hi1 hr (by omega) (by omega)
          (hid j (by omega))
    have hK3 : TrivKerL (pivotStep t i0 r r) t.rows :=
      pivotStep_trivKer t i0 r r (by omega) hi2 hr hrc hnz hK
    have hA3 : AugOK (pivotStep t i0 r r) t.rows x :=
      pivotStep_augOK t i0 r r x (by omega) hi2 hr hrc hA
    have hstep : rrefLoop t r r (fuel + 1) = rrefLoop (pivotStep t i0 r r) (r + 1) (r + 1) fuel := by
      simp only [rrefLoop, hfp]
    rw [hstep]
    exact ih (pivotStep t i0 r r) (r + 1) x hcols
      (by simp only [pivotStep_rows]; omega) hidNew hK3 hA3

/-- C2: for every invertible square matrix A over an exact field and every
column vector x with x.size() = A.get_rows(), the product A·x is well
formed and solve_linear_system(A, A·x) succeeds and returns a vector equal
to x in size and in every component: the within-tolerance round-trip of
the specification becomes exact equality over an exact field. -/
theorem claim2_solve_round_trip (A : Mat α) (x : Vec α)
    (hwf : A.WF) (hsq : A.rows = A.cols) (hx : x.size = A.rows) (hx1 : x.data.cols = 1)
    (hinv : A.HasInverse) :
    matMul A x.data = .ok (vecMulU A x).data ∧
    ∃ s : Vec α, solve_linear_system A (vecMulU A x) = .ok s ∧
      s.size = x.size ∧ ∀ i, i < x.size → s.atV i = x.atV i := by
  have hxr : x.data.rows = A.rows := hx
  have hcond : ¬ A.cols ≠ x.data.rows := by
    rw [hxr, ← hsq]
    exact not_not_intro rfl
  have hcond2 : ¬ (A.rows ≠ A.cols ∨ A.rows ≠ (vecMulU A x).size) := by
    push_neg
    exact ⟨hsq, rfl⟩
  refine ⟨?_, ⟨⟨⟨(vecMulU A x).size, 1, fun i j =>
      if i < (vecMulU A x).size ∧ j = 0 then
        (augmentedOf A (vecMulU A x)).reduced_row_echelon_form.entry i A.cols
      else 0⟩, true⟩, ?_, ?_, ?_⟩⟩
  · rw [matMul, if_neg hcond]
    rfl
  · rw [solve_linear_system, if_neg hcond2]
  · exact hx.symm
  · intro i hi
    have hiA : i < A.rows := by omega
    have hif : i < (vecMulU A x).size ∧ (0 : ℕ) = 0 := ⟨hiA, rfl⟩
    show (if i < (vecMulU A x).size ∧ (0 : ℕ) = 0 then
        (augmentedOf A (vecMulU A x)).reduced_row_echelon_form.entry i A.cols
      else 0) = x.atV i
    rw [if_pos hif]
    have hcols0 : (augmentedOf A (vecMulU A x)).cols = (augmentedOf A (vecMulU A x)).rows + 1 := by
      show A.cols + 1 = A.rows + 1
      omega
    have hK0 : TrivKerL (augmentedOf A (vecMulU A x)) (augmentedOf A (vecMulU A x)).rows := by
      refine trivKer_of_hasInverse A (augmentedOf A (vecMulU A x)) hsq rfl ?_ hinv
      intro i2 hi2 j hj
      show (if i2 < A.rows ∧ j < A.cols then A.entry i2 j else _) = A.entry i2 j
      rw [if_pos ⟨hi2, by omega⟩]
    have hA0 : AugOK (augmentedOf A (vecMulU A x)) (augmentedOf A (vecMulU A x)).rows
        (fun k => x.atV k) := by
      intro i2 hi2
      have hi2A : i2 < A.rows := hi2
      have hrhs : (augmentedOf A (vecMulU A x)).entry i2 (augmentedOf A (vecMulU A x)).rows
          = (vecMulU A x).atV i2 := by
        have hnot : ¬ (i2 < A.rows ∧ (augmentedOf A (vecMulU A x)).rows < A.cols) := by
          intro hcc
          have h2 : (augmentedOf A (vecMulU A x)).rows = A.rows := rfl
          obtain ⟨hcc1, hcc2⟩ := hcc
          rw [h2] at hcc2
          omega
        have hyes : i2 < A.rows ∧ (augmentedOf A (vecMulU A x)).rows = A.cols := ⟨hi2A, hsq⟩
        show (if i2 < A.rows ∧ (augmentedOf A (vecMulU A x)).rows < A.cols then _
          else if i2 < A.rows ∧ (augmentedOf A (vecMulU A x)).rows = A.cols then
            (vecMulU A x).atV i2 else 0) = (vecMulU A x).atV i2
        rw [if_neg hnot, if_pos hyes]
      have hbv : (vecMulU A x).atV i2 = ∑ k ∈ Finset.range A.cols, A.entry i2 k * x.atV k := by
        show (if i2 < A.rows ∧ (0 : ℕ) < x.data.cols then mulEntryFold A x.data i2 0 else 0) = _
        rw [if_pos ⟨hi2A, by omega⟩, mulEntryFold, foldl_range_add]
        rfl
      calc (∑ j ∈ Finset.range (augmentedOf A (vecMulU A x)).rows,
            (augmentedOf A (vecMulU A x)).entry i2 j * x.atV j)
          = ∑ j ∈ Finset.range A.rows, A.entry i2 j * x.atV j := by
            refine Finset.sum_congr rfl ?_
            intro j hj
            have hjA : j < A.rows := Finset.mem_range.mp hj
            have he : (augmentedOf A (vecMulU A x)).entry i2 j = A.entry i2 j := by
              show (if i2 < A.rows ∧ j < A.cols then A.entry i2 j else _) = A.entry i2 j
              rw [if_pos ⟨hi2A, by omega⟩]
            rw [he]
        _ = ∑ k ∈ Finset.range A.cols, A.entry i2 k * x.atV k := by rw [hsq]
        _ = (vecMulU A x).atV i2 := hbv.symm
        _ = (augmentedOf A (vecMulU A x)).entry i2 (augmentedOf A (vecMulU A x)).rows := hrhs.symm
    obtain ⟨hidF, hsolF⟩ :=
      rrefLoop_solve (augmentedOf A (vecMulU A x)).rows (augmentedOf A (vecMulU A x)) 0
        (fun k => x.atV k) hcols0 (by omega) (by intro j hj; omega) hK0 hA0
    have hidx : A.cols = (augmentedOf A (vecMulU A x)).rows := hsq.symm
    rw [hidx]
    exact hsolF i hiA

/-- C2 witness: the round trip evaluated at the documented system matrix
[[3,2],[1,1]] and the vector (1,2), whose inverse is given explicitly. -/
theorem claim2_solve_round_trip_witness :
    matMul mSolveA vX.data = .ok (vecMulU mSolveA vX).data ∧
    ∃ s : Vec ℚ, solve_linear_system mSolveA (vecMulU mSolveA vX) = .ok s ∧
      s.size = vX.size ∧ ∀ i, i < vX.size → s.atV i = vX.atV i := by
  refine claim2_solve_round_trip mSolveA vX (by constructor <;> decide) rfl rfl rfl
    ⟨mSolveAInv, rfl, rfl, ?_, ?_⟩
  · intro i hi j hj
    have hi2 : i < 2 := hi
    have hj2 : j < 2 := hj
    interval_cases i <;> interval_cases j <;>
      norm_num [matMulU, mulEntryFold, mSolveA, mSolveAInv, List.range_succ]
  · intro i hi j hj
    have hi2 : i < 2 := hi
    have hj2 : j < 2 := hj
    interval_cases i <;> interval_cases j <;>
      norm_num [matMulU, mulEntryFold, mSolveA, mSolveAInv, List.range_succ]

end RoundTrip

end CppLinAlg
